import Mathlib

/-!
Verification development for the calculator in Calc.py: a tokenizer, a
precedence-climbing parser and an evaluator for arithmetic expressions.

Modelling conventions (shallow embedding of the Python source):
* Python numbers are either ints (Lean Int) or floats.  Floats are modelled
  as exact rationals (Lean Rat); rational arithmetic is implemented via
  mkRat so that all definitions kernel-reduce.  The model is exact: it has
  no IEEE-754 rounding, no infinities and no float-range OverflowError
  (e.g. float("1e999"), int(float("1e999")), float(10^400), 2.0 ** 2000.0).
  Theorems asserting a successful float result therefore carry hypotheses
  restricting operands and results to ranges where the double computation
  performed by the program is exact (divisor dyadic with a 53-bit mantissa,
  exact integer quotients and powers below 2^53), so that the exact
  rational value coincides with the program's double bit for bit; outside
  those ranges the theorems assert nothing.
* Python truthiness is modelled explicitly (0, 0.0, "" and None are falsy).
* A Python function that prints error messages and returns None or a number
  is modelled as returning the list of printed messages together with an
  optional value; an uncaught Python exception (TypeError, ValueError,
  KeyError, AttributeError, ZeroDivisionError) is modelled as a distinct
  "crash" result.
* The mutually recursive parser is modelled with an explicit fuel parameter
  (structural recursion); fuel exhaustion is a distinct result that is shown
  or computed not to occur at the fuel bounds used.
-/

set_option maxRecDepth 10000

namespace Calc

/-- A Python number: an int or a float (modelled as an exact rational). -/
inductive Val where
  | int (n : Int)
  | float (q : Rat)
deriving DecidableEq, Repr

/-- Python truthiness of a number: 0 and 0.0 are falsy. -/
def Val.truthy : Val → Bool
  | .int n => n != 0
  | .float q => q != 0

/-- The value stored in the tok field of an Expr node: the source stores
either a raw string (the normal case, produced by the parser) or an already
numeric value (lines 163-164 of Calc.py accept int/float toks). -/
inductive Tok where
  | str (s : String)
  | numv (v : Val)
deriving DecidableEq, Repr

/-- Python truthiness of a tok field value ("" and 0 are falsy). -/
def Tok.truthy : Tok → Bool
  | .str s => s != ""
  | .numv v => v.truthy

/-- Truthiness of an optional tok (None is falsy). -/
def tokTruthy : Option Tok → Bool
  | none => false
  | some t => t.truthy

/-- Truthiness of an optional operator string (None and "" are falsy). -/
def opTruthy : Option String → Bool
  | none => false
  | some s => s != ""

/-- The Expr class of Calc.py: four optional fields tok, op, left, right.
Python child slots hold either an Expr object or None; the constructor
Expr.null plays the role of None in a slot, so that, e.g., the evaluator
can be applied to the result of the parser even when that result is
Python None. -/
inductive Expr where
  | null
  | mk (tok : Option Tok) (op : Option String) (left : Expr) (right : Expr)
deriving DecidableEq, Repr

/-- Python truthiness of an expression slot: None is falsy, any Expr object
is truthy (Expr defines neither a bool nor a len hook). -/
def Expr.truthy : Expr → Bool
  | .null => false
  | .mk _ _ _ _ => true

/-- Expr.is_empty (Calc.py lines 134-139). Only ever called on non-null
expressions in the modelled control flow. -/
def Expr.is_empty : Expr → Bool
  | .null => true
  | .mk tok op left right =>
    !tokTruthy tok && !opTruthy op && !left.truthy && !right.truthy

/-- Expr.is_token (Calc.py lines 141-143). -/
def Expr.is_token : Expr → Bool
  | .null => false
  | .mk tok _ _ _ => tokTruthy tok

/-- Expr.is_parenth_expr (Calc.py lines 150-153): no op, no left child,
a right child. -/
def Expr.is_parenth_expr : Expr → Bool
  | .null => false
  | .mk _ op left right => !opTruthy op && !left.truthy && right.truthy

/-- The tok field of an expression (None for null). -/
def Expr.tokv : Expr → Option Tok
  | .null => none
  | .mk t _ _ _ => t

/-- The op field of an expression (None for null). -/
def Expr.opv : Expr → Option String
  | .null => none
  | .mk _ o _ _ => o

/-- The right field of an expression. -/
def Expr.rightv : Expr → Expr
  | .null => .null
  | .mk _ _ _ r => r

/-! ## Operator table (Calc.py lines 42-66) -/

def UNARYOP : Nat := 1
def BINARYOP : Nat := 2
def LEFT : Char := 'L'
def RIGHT : Char := 'R'

/-- Op_Sets (Calc.py lines 49-58): groups of operators from weakest to
strongest binding, each with an arity kind and an associativity. -/
def Op_Sets : List (Nat × Char × List String) :=
  [(BINARYOP, LEFT, ["|"]),
   (BINARYOP, LEFT, ["^"]),
   (BINARYOP, LEFT, ["&"]),
   (BINARYOP, LEFT, ["<<", ">>"]),
   (BINARYOP, LEFT, ["+", "-"]),
   (BINARYOP, LEFT, ["*", "/", "%"]),
   (UNARYOP, RIGHT, ["+ x", "- x", "~ x"]),
   (BINARYOP, RIGHT, ["**"])]

/-- build_Op_Table (Calc.py lines 60-66): assign precedence 1, 2, ... to the
successive groups of Op_Sets.  The Python dict is modelled as an association
list (keys are pairwise distinct). -/
def buildOpTable : Nat → List (Nat × Char × List String) → List (String × Nat × Char × Nat)
  | _, [] => []
  | precedence, (kind, assoc, ops) :: rest =>
    ops.map (fun op => (op, kind, assoc, precedence + 1)) ++ buildOpTable (precedence + 1) rest

def Op_Table : List (String × Nat × Char × Nat) := buildOpTable 0 Op_Sets

/-- Dictionary lookup Op_Table[s] (keys are distinct, so find? agrees with
the Python dict). -/
def lookupOp (s : String) : Option (Nat × Char × Nat) :=
  (Op_Table.find? (fun p => p.1 == s)).map (fun p => p.2)

/-- The membership test "s in Op_Table". -/
def inOpTable (s : String) : Bool := (lookupOp s).isSome

/-! ## Tokenizer (Calc.py lines 69-114) -/

/-- Predefined_Tokens (Calc.py lines 69-76), listed longest first. -/
def Predefined_Tokens : List String :=
  ["**", "<<", ">>", "(", ")", "~", "+", "-", "*", "/", "%", "|", "^", "&"]

/-- The characters accepted in a numeric-literal run (Calc.py line 103). -/
def numeralChars : List Char := "0123456789abcdefABCDEF.xXbo".data

/-- Whether the first list is a prefix of the second (the slice comparison
line[start:finish] == tok of Calc.py line 93). -/
def hasPfx : List Char → List Char → Bool
  | [], _ => true
  | _ :: _, [] => false
  | a :: as, b :: bs => a == b && hasPfx as bs

/-- Is this a whitespace character skipped by the tokenizer (line 85)? -/
def isWs (c : Char) : Bool := c == ' ' || c == '\t' || c == '\n'

/-- One scan of tokenise (Calc.py lines 80-114) over the remaining
characters, returning the tokens produced and the unconsumed remainder
(nonempty exactly when the scan halted on an incomprehensible character).
The fuel argument only bounds the recursion; every step consumes at least
one character, so fuel = length + 1 never runs out (none = out of fuel). -/
def tokeniseAux : Nat → List Char → Option (List String × List Char)
  | 0, _ => none
  | _ + 1, [] => some ([], [])
  | fuel + 1, c :: cs =>
    if isWs c then
      tokeniseAux fuel cs
    else
      match Predefined_Tokens.find? (fun t => hasPfx t.data (c :: cs)) with
      | some t =>
        match tokeniseAux fuel ((c :: cs).drop t.data.length) with
        | some (toks, rest) => some (t :: toks, rest)
        | none => none
      | none =>
        let run := (c :: cs).takeWhile (fun ch => numeralChars.contains ch)
        if run.isEmpty then some ([], c :: cs)
        else
          match tokeniseAux fuel ((c :: cs).dropWhile (fun ch => numeralChars.contains ch)) with
          | some (toks, rest) => some (String.mk run :: toks, rest)
          | none => none

/-- tokenise (Calc.py lines 80-114): the list of tokens of a line. -/
def tokenise (line : String) : List String :=
  ((tokeniseAux (line.data.length + 1) line.data).getD ([], [])).1

/-! ## Numeric literal parsing: to_number (Calc.py lines 317-332)

Python library calls int(s, base) and float(s) are modelled by explicit
digit parsers returning none where Python raises ValueError.  Tokens never
contain whitespace or underscores, so those int()/float() conveniences are
not modelled. -/

/-- The value of a single digit character in bases up to 16. -/
def hexDigit (c : Char) : Option Nat :=
  if '0' ≤ c ∧ c ≤ '9' then some (c.toNat - '0'.toNat)
  else if 'a' ≤ c ∧ c ≤ 'f' then some (c.toNat - 'a'.toNat + 10)
  else if 'A' ≤ c ∧ c ≤ 'F' then some (c.toNat - 'A'.toNat + 10)
  else none

/-- Accumulate the value of a digit string in the given base; none if some
character is not a digit of the base. -/
def digitsValAux (base : Nat) : Nat → List Char → Option Nat
  | acc, [] => some acc
  | acc, c :: cs =>
    match hexDigit c with
    | some d => if d < base then digitsValAux base (acc * base + d) cs else none
    | none => none

/-- The value of a nonempty digit string in the given base. -/
def digitsVal (base : Nat) (cs : List Char) : Option Nat :=
  match cs with
  | [] => none
  | _ :: _ => digitsValAux base 0 cs

/-- Strip an optional sign character, returning (negative?, rest). -/
def stripSign : List Char → Bool × List Char
  | '-' :: cs => (true, cs)
  | '+' :: cs => (false, cs)
  | cs => (false, cs)

/-- Python int(s, base) for base 16, 8, 2 or 10: an optional sign, then an
optional base prefix (0x/0X, 0o/0O, 0b/0B — Python accepts the matching
prefix inside the digits), then a nonempty digit string. -/
def parseIntBase (base : Nat) (pfx : List (List Char)) (s : String) : Option Int :=
  let (neg, cs) := stripSign s.data
  let cs :=
    match pfx.find? (fun p => hasPfx p cs) with
    | some p => cs.drop p.length
    | none => cs
  (digitsVal base cs).map (fun n => if neg then -(n : Int) else (n : Int))

def hexPfxs : List (List Char) := [['0', 'x'], ['0', 'X']]
def octPfxs : List (List Char) := [['0', 'o'], ['0', 'O']]
def binPfxs : List (List Char) := [['0', 'b'], ['0', 'B']]

/-- Split a character list at the first character satisfying p; the second
component is some tail exactly when such a character exists. -/
def splitFirst (p : Char → Bool) : List Char → List Char × Option (List Char)
  | [] => ([], none)
  | c :: cs =>
    if p c then ([], some cs)
    else
      let (a, b) := splitFirst p cs
      (c :: a, b)

def isDecDigit (c : Char) : Bool := '0' ≤ c && c ≤ '9'

/-- The Nat value of a (possibly empty) decimal digit string; none if a
character is not a decimal digit. -/
def decValOpt (cs : List Char) : Option Nat :=
  if cs.all isDecDigit then
    some (cs.foldl (fun a c => a * 10 + (c.toNat - '0'.toNat)) 0)
  else none

/-- The mantissa of a Python float literal: digits with at most one dot,
at least one digit overall.  Returns the value as a rational. -/
def parseMantissa (cs : List Char) : Option Rat :=
  let (ip, fp?) := splitFirst (fun c => c == '.') cs
  match fp? with
  | none =>
    match decValOpt ip with
    | some n => if ip.isEmpty then none else some (mkRat n 1)
    | none => none
  | some fp =>
    if fp.contains '.' then none
    else
      match decValOpt ip, decValOpt fp with
      | some n, some m =>
        if ip.isEmpty && fp.isEmpty then none
        else some (mkRat (n * 10 ^ fp.length + m) (10 ^ fp.length))
      | _, _ => none

/-- Multiply by a power of ten (the exponent part of a float literal). -/
def timesTenPow (q : Rat) (e : Int) : Rat :=
  match e with
  | .ofNat k => mkRat (q.num * 10 ^ k) q.den
  | .negSucc k => mkRat q.num (q.den * 10 ^ (k + 1))

/-- Python float(s): sign, mantissa, optional e/E exponent. -/
def parseFloat (s : String) : Option Rat :=
  let (neg, cs) := stripSign s.data
  let (mant, exp?) := splitFirst (fun c => c == 'e' || c == 'E') cs
  let val? :=
    match exp? with
    | none => parseMantissa mant
    | some ecs =>
      let (eneg, ecs) := stripSign ecs
      match parseMantissa mant, digitsVal 10 ecs with
      | some m, some e => some (timesTenPow m (if eneg then -(e : Int) else (e : Int)))
      | _, _ => none
  val?.map (fun q => if neg then -q else q)

/-- to_number (Calc.py lines 317-332): dispatch on the literal format, in
source order (hex, hex, octal, binary, float by dot, float by e, float by
E, decimal int).  none models an uncaught ValueError from int()/float(). -/
def to_number (tok : String) : Option Val :=
  if tok.take 2 = "0x" then (parseIntBase 16 hexPfxs (tok.drop 2)).map Val.int
  else if tok.take 2 = "0X" then (parseIntBase 16 hexPfxs (tok.drop 2)).map Val.int
  else if tok.take 2 = "0o" then (parseIntBase 8 octPfxs (tok.drop 2)).map Val.int
  else if tok.take 2 = "0b" then (parseIntBase 2 binPfxs (tok.drop 2)).map Val.int
  else if tok.data.contains '.' then (parseFloat tok).map Val.float
  else if tok.data.contains 'e' then (parseFloat tok).map Val.float
  else if tok.data.contains 'E' then (parseFloat tok).map Val.float
  else (parseIntBase 10 [] tok).map Val.int

/-! ## Evaluator (Calc.py lines 160-217)

Rational arithmetic helpers are written with mkRat (rather than the
Batteries Rat operations) so that every definition kernel-reduces; mkRat
normalizes, so results agree with the Mathlib rational operations. -/

/-- The rational with the given integer numerator and denominator (the
denominator sign is absorbed into the numerator). -/
def qMk (n d : Int) : Rat :=
  if d < 0 then mkRat (-n) d.natAbs else mkRat n d.natAbs

def qSub (x y : Rat) : Rat := qMk (x.num * y.den - y.num * x.den) (x.den * y.den)

def qMul (x y : Rat) : Rat := qMk (x.num * y.num) (x.den * y.den)

def qDiv (x y : Rat) : Rat := qMk (x.num * y.den) (x.den * y.num)

def qNeg (x : Rat) : Rat := qMk (-x.num) x.den

def qOfInt (n : Int) : Rat := mkRat n 1

/-- Floor of a rational (the denominator is positive). -/
def qFloor (x : Rat) : Int := Int.fdiv x.num x.den

/-- x raised to an integer power (x nonzero when e is negative; the
evaluator guards the zero-to-a-negative-power case). -/
def qPowInt (x : Rat) (e : Int) : Rat :=
  match e with
  | .ofNat k => qMk (x.num ^ k) ((x.den : Int) ^ k)
  | .negSucc k => qMk ((x.den : Int) ^ (k + 1)) (x.num ^ (k + 1))

/-- Python float(v): ints are widened to float, floats returned as is. -/
def toQ : Val → Rat
  | .int n => qOfInt n
  | .float q => q

/-- Python int(v): floats are truncated toward zero. -/
def truncInt : Val → Int
  | .int n => n
  | .float q => Int.tdiv q.num q.den

/-- Python x - y on numbers: int - int is int, otherwise float. -/
def pySub : Val → Val → Val
  | .int a, .int b => .int (a - b)
  | x, y => .float (qSub (toQ x) (toQ y))

/-- Python x * y on numbers: int * int is int, otherwise float. -/
def pyMul : Val → Val → Val
  | .int a, .int b => .int (a * b)
  | x, y => .float (qMul (toQ x) (toQ y))

/-- Python float modulo a nonzero int divisor: the remainder with the sign
of the divisor, x - m * floor(x / m). -/
def pyFMod (q : Rat) (m : Int) : Rat :=
  qSub q (qOfInt (m * qFloor (qDiv q (qOfInt m))))

/-- Truthiness of an optional number (None is falsy). -/
def optTruthy : Option Val → Bool
  | none => false
  | some v => v.truthy

/-- The result of Expr.evaluate: the ordered list of messages printed, and
the returned value (none = returned Python None); crash models an uncaught
Python exception aborting the program. -/
inductive EvalResult where
  | ok (printed : List String) (ret : Option Val)
  | crash (msg : String)
deriving DecidableEq, Repr

/-- float(x) ** float(y) (Calc.py line 214).  0.0 to a negative power
raises ZeroDivisionError.  A non-integral float exponent is outside the
exact-rational model of floats (no claim involves one); it is mapped to a
crash marker. -/
def pyFloatPow (x y : Rat) (printed : List String) : EvalResult :=
  if y.den = 1 then
    if x.num = 0 && y.num < 0 then .crash "ZeroDivisionError: zero to a negative power"
    else .ok printed (some (.float (qPowInt x y.num)))
  else .crash "model: non-integral float exponent not representable"

/-- A bitwise int operation (|, ^, &): both operands must be ints
(Python raises TypeError otherwise, also for None operands). -/
def bitwise2 (f : Int → Int → Int) (x y : Option Val) (printed : List String) : EvalResult :=
  match x, y with
  | some (.int a), some (.int b) => .ok printed (some (.int (f a b)))
  | _, _ => .crash "TypeError: bitwise operator needs ints"

/-- The operator dispatch of Expr.evaluate (Calc.py lines 185-217), with
x and y the evaluated operand values and printed the messages already
printed while evaluating the operands.  Factored out of evaluate for
reuse in proofs; semantics unchanged. -/
def applyOp (op : Option String) (x y : Option Val) (printed : List String) : EvalResult :=
  match op with
  | none => .ok (printed ++ ["Parse error: leaf node wasn't a literal number."]) none
  | some s =>
    if s = "" then
      -- "" is falsy: also the leaf-node branch of line 185
      .ok (printed ++ ["Parse error: leaf node wasn't a literal number."]) none
    else if s = "|" then bitwise2 Int.lor x y printed
    else if s = "^" then bitwise2 Int.xor x y printed
    else if s = "&" then bitwise2 Int.land x y printed
    else if s = "<<" then
      match x, y with
      | some (.int a), some (.int b) =>
        if b < 0 then .crash "ValueError: negative shift count"
        else .ok printed (some (.int (a * 2 ^ b.toNat)))
      | _, _ => .crash "TypeError: shift operator needs ints"
    else if s = ">>" then
      match x, y with
      | some (.int a), some (.int b) =>
        if b < 0 then .crash "ValueError: negative shift count"
        else .ok printed (some (.int (Int.fdiv a (2 ^ b.toNat))))
      | _, _ => .crash "TypeError: shift operator needs ints"
    else if s = "+" then
      -- line 196: the source computes x - y here
      match x, y with
      | some a, some b => .ok printed (some (pySub a b))
      | _, _ => .crash "TypeError: binary operator on None"
    else if s = "-" then
      match x, y with
      | some a, some b => .ok printed (some (pySub a b))
      | _, _ => .crash "TypeError: binary operator on None"
    else if s = "*" then
      match x, y with
      | some a, some b => .ok printed (some (pyMul a b))
      | _, _ => .crash "TypeError: binary operator on None"
    else if s = "/" then
      if optTruthy y then
        match x, y with
        | some a, some b => .ok printed (some (.float (qDiv (toQ a) (toQ b))))
        | _, _ => .crash "TypeError: binary operator on None"
      else .ok (printed ++ ["Error: division by zero."]) none
    else if s = "%" then
      if optTruthy y then
        match x, y with
        | some a, some b =>
          let m := truncInt b
          if m = 0 then .crash "ZeroDivisionError: integer modulo by zero"
          else
            match a with
            | .int n => .ok printed (some (.int (Int.fmod n m)))
            | .float q => .ok printed (some (.float (pyFMod q m)))
        | _, _ => .crash "TypeError: binary operator on None"
      else .ok (printed ++ ["Error: modulo by zero."]) none
    else if s = "+ x" then
      match y with
      | some v => .ok printed (some v)
      | none => .crash "TypeError: unary operator on None"
    else if s = "- x" then
      match y with
      | some (.int n) => .ok printed (some (.int (-n)))
      | some (.float q) => .ok printed (some (.float (qNeg q)))
      | none => .crash "TypeError: unary operator on None"
    else if s = "~ x" then
      match y with
      | some v => .ok printed (some (.int (-(truncInt v + 1))))
      | none => .crash "TypeError: int() of None"
    else if s = "**" then
      match x, y with
      | some a, some b => pyFloatPow (toQ a) (toQ b) printed
      | _, _ => .crash "TypeError: float() of None"
    else .ok (printed ++ ["Error: evaluating"]) none


/-- Expr.evaluate (Calc.py lines 160-217), translated branch for branch.
The printed error message of line 168 contains repr(self) in the source;
the repr text is elided here (no claim depends on it), as is the repr in
the message of line 189. -/
def evaluate : Expr → EvalResult
  | .null => .crash "AttributeError: NoneType has no attribute evaluate"
  | .mk tok op left right =>
    match tok, tokTruthy tok with
    | some (.str s), true =>
      -- line 161: a string token is parsed with to_number
      match to_number s with
      | some v => .ok [] (some v)
      | none => .crash "ValueError: to_number"
    | some (.numv v), true =>
      -- line 163: an int/float token is returned as is
      .ok [] (some v)
    | _, _ =>
      if !opTruthy op && !left.truthy && right.truthy then
        -- line 165: parenthesized subexpression
        evaluate right
      else if opTruthy op && !left.truthy && !right.truthy then
        -- line 167: operator with neither operand
        .ok ["Error: ... has too few items."] none
      else
        -- lines 171-176: evaluate the left operand
        match (if !left.truthy then .ok [] none
               else if left.is_empty then .ok [] none
               else evaluate left) with
        | .crash m => .crash m
        | .ok lx x =>
          -- line 178: no right child at all returns x
          if !right.truthy then .ok lx x
          else
            -- lines 180-183: evaluate the right operand
            match (if right.is_empty then .ok [] none else evaluate right) with
            | .crash m => .crash m
            | .ok ly y =>
              applyOp op x y (lx ++ ly)

/-! ## Parser (Calc.py lines 219-315)

The token cursor is modelled by passing the list of unconsumed tokens.
Each parser function returns, besides the parsed expression and remaining
tokens, the list of messages it printed via parse_error, plus one piece of
instrumentation needed by a claim: a Boolean that records whether one of
the two UNARYOP branches in the fold step of parse_expr (Calc.py lines
299-300 and 310-311) was executed.  The while loop of parse_expr is
modelled by parse_loop (the until-break iteration) and parse_fold (one
iteration body after an operator candidate was found). -/

structure PFlags where
  msgs : List String
  hit : Bool
deriving DecidableEq, Repr

/-- Combine flags of two successive steps. -/
def PFlags.seq (a b : PFlags) : PFlags := ⟨a.msgs ++ b.msgs, a.hit || b.hit⟩

inductive PRes where
  | ok (e : Expr) (ts : List String) (fl : PFlags)
  | crash (msg : String) (fl : PFlags)
  | fuelOut (fl : PFlags)
deriving DecidableEq, Repr

/-- Prepend the flags of an earlier step to a result. -/
def PRes.withFl (fl : PFlags) : PRes → PRes
  | .ok e ts fl2 => .ok e ts (fl.seq fl2)
  | .crash m fl2 => .crash m (fl.seq fl2)
  | .fuelOut fl2 => .fuelOut (fl.seq fl2)

mutual

/-- Parser.parse_atom (Calc.py lines 241-265).  The min_prec parameter is
unused in the source body; it is kept for faithfulness. -/
def parse_atom (fuel : Nat) (_min_prec : Nat) (ts : List String) : PRes :=
  match fuel with
  | 0 => .fuelOut ⟨[], false⟩
  | fuel + 1 =>
    match ts with
    | [] =>
      .ok (.mk none none .null .null) []
        ⟨["Parse error: source ended unexpectedly"], false⟩
    | tok :: rest =>
      if tok = "(" then
        match parse_expr fuel 0 rest with
        | .ok sub ts2 fl =>
          let fl :=
            if ts2.head? = some ")" then fl
            else fl.seq ⟨["Parse error: unmatched \"(\""], false⟩
          .ok (.mk none none .null sub) (ts2.drop 1) fl
        | r => r
      else if tok = "-" ∨ tok = "+" ∨ tok = "~" ∨ tok = "not" then
        let op := tok ++ " x"
        match lookupOp op with
        | none => .crash "KeyError: Op_Table" ⟨[], false⟩
        | some (_, _, precedence) =>
          match parse_expr fuel precedence rest with
          | .ok sub ts2 fl => .ok (.mk none (some op) .null sub) ts2 fl
          | r => r
      else if inOpTable tok then
        .ok (.mk none none .null .null) ts
          ⟨["Parse error: expected an atom, not an operator \"" ++ tok ++ "\""], false⟩
      else
        .ok (.mk (some (.str tok)) none .null .null) rest ⟨[], false⟩
termination_by structural fuel

/-- Parser.parse_expr (Calc.py lines 267-315): parse an atom, then fold
following operators via parse_loop. -/
def parse_expr (fuel min_prec : Nat) (ts : List String) : PRes :=
  match fuel with
  | 0 => .fuelOut ⟨[], false⟩
  | fuel + 1 =>
    match parse_atom fuel min_prec ts with
    | .ok lhs ts2 fl => PRes.withFl fl (parse_loop fuel min_prec lhs ts2)
    | r => r
termination_by structural fuel

/-- The while loop of parse_expr (Calc.py lines 271-315): find an operator
candidate (from lhs if it is a bare operator token, else the current
token), or break returning lhs. -/
def parse_loop (fuel min_prec : Nat) (lhs : Expr) (ts : List String) : PRes :=
  match fuel with
  | 0 => .fuelOut ⟨[], false⟩
  | fuel + 1 =>
    let lhsOpTok : Option String :=
      match lhs.tokv with
      | some (.str s) => if lhs.is_token && inOpTable s then some s else none
      | _ => none
    match lhsOpTok with
    | some s =>
      -- lines 272-274: lhs is itself an operator token; it is replaced by
      -- Python None (Expr.null) before the fold step
      parse_fold fuel min_prec s .null ts
    | none =>
      match ts.head? with
      | none => .ok lhs ts ⟨[], false⟩
      | some tok =>
        if inOpTable tok then parse_fold fuel min_prec tok lhs ts
        else .ok lhs ts ⟨[], false⟩
termination_by structural fuel

/-- One iteration body of the parse_expr loop (Calc.py lines 282-313):
check precedence, consume the current token, parse the right-hand side,
and fold it into the left-hand accumulator. -/
def parse_fold (fuel min_prec : Nat) (op : String) (lhsCur : Expr) (ts : List String) : PRes :=
  match fuel with
  | 0 => .fuelOut ⟨[], false⟩
  | fuel + 1 =>
    match lookupOp op with
    | none => .crash "KeyError: Op_Table" ⟨[], false⟩
    | some (kind, assoc, precedence) =>
      if precedence < min_prec then .ok lhsCur ts ⟨[], false⟩
      else
        let next_min_prec := if assoc = LEFT then precedence + 1 else precedence
        match parse_expr fuel next_min_prec (ts.drop 1) with
        | .ok rhs ts2 fl =>
          if kind = UNARYOP then
            -- line 300 (a UNARYOP fold branch; hit flag instrumented)
            PRes.withFl (fl.seq ⟨[], true⟩)
              (parse_loop fuel min_prec (.mk none (some op) .null rhs) ts2)
          else
            match lhsCur with
            | .null =>
              -- line 301 on Python None raises AttributeError
              .crash "AttributeError: NoneType has no attribute is_token" fl
            | l =>
              if l.is_token then
                PRes.withFl fl (parse_loop fuel min_prec (.mk none (some op) l rhs) ts2)
              else if l.is_parenth_expr then
                PRes.withFl fl (parse_loop fuel min_prec (.mk none (some op) l.rightv rhs) ts2)
              else
                match l.opv with
                | none => .crash "KeyError: Op_Table[None]" fl
                | some prev_op =>
                  match lookupOp prev_op with
                  | none => .crash "KeyError: Op_Table" fl
                  | some (pk, pa, pp) =>
                    if pk = BINARYOP ∧ pa = assoc ∧ pp = precedence then
                      PRes.withFl fl (parse_loop fuel min_prec (.mk none (some op) l rhs) ts2)
                    else if kind = UNARYOP then
                      -- line 311 (the other UNARYOP fold branch): the call
                      -- Expr(ops=op, right=rhs) passes a keyword that the
                      -- Expr constructor does not accept, a TypeError
                      .crash "TypeError: Expr() got an unexpected keyword argument"
                        (fl.seq ⟨[], true⟩)
                    else if kind = BINARYOP then
                      PRes.withFl fl (parse_loop fuel min_prec (.mk none (some op) l rhs) ts2)
                    else
                      PRes.withFl fl (parse_loop fuel min_prec l ts2)
        | r => r
termination_by structural fuel

end

/-- The canonical parser fuel used by the top-level parse: generous for
every trace the claims touch (checked by computation where needed). -/
def parseFuel (n : Nat) : Nat := 4 * n + 8

/-- parse (Calc.py lines 343-350): tokenise the line; if there are no
tokens return None; otherwise parse and evaluate.  Messages printed by the
parser precede those printed by the evaluator. -/
def parse (line : String) : EvalResult :=
  match tokenise line with
  | [] => .ok [] none
  | tokens =>
    match parse_expr (parseFuel tokens.length) 0 tokens with
    | .ok e _ fl =>
      match evaluate e with
      | .ok printed ret => .ok (fl.msgs ++ printed) ret
      | .crash m => .crash m
    | .crash m _ => .crash m
    | .fuelOut _ => .crash "model: parser out of fuel"

/-! ## Statement helpers -/

/-- A literal leaf node, as built by the parser (Calc.py line 265). -/
def strLeaf (s : String) : Expr := .mk (some (.str s)) none .null .null

/-- A binary operator node, as built by the parser (Calc.py line 302). -/
def binNode (op : String) (l r : Expr) : Expr := .mk none (some op) l r

/-- A unary operator node, as built by the parser (Calc.py line 259). -/
def unNode (op : String) (r : Expr) : Expr := .mk none (some op) .null r

/-- A parenthesized node, as built by the parser (Calc.py line 253). -/
def parenNode (r : Expr) : Expr := .mk none none .null r

/-- The expression tree the parser builds for a line (none if the parse
crashed or ran out of fuel). -/
def parseTree (line : String) : Option Expr :=
  match parse_expr (parseFuel (tokenise line).length) 0 (tokenise line) with
  | .ok e _ _ => some e
  | _ => none

/-- The instrumentation flag of a parse result: did a UNARYOP fold branch
of parse_expr execute? -/
def resHit : PRes → Bool
  | .ok _ _ fl => fl.hit
  | .crash _ fl => fl.hit
  | .fuelOut fl => fl.hit

/-- A token is kind-safe when, if it is an operator key at all, its table
entry is binary-kind (the unary keys "+ x", "- x", "~ x" contain a space
and can never equal a token). -/
def tokKindSafe (t : String) : Bool :=
  match lookupOp t with
  | some (k, _, _) => k == BINARYOP
  | none => true

/-- An expression is token-safe when its tok field, if a string, is not an
operator key; the parser only ever produces such expressions, which makes
the defensive lhs-is-an-operator-token path of parse_loop dead. -/
def tokSafe (e : Expr) : Bool :=
  match e.tokv with
  | some (.str s) => !inOpTable s
  | _ => true

/-- A line is syntactically valid when the tokenizer consumes it in full,
it has at least one token, and the parser at the canonical fuel consumes
every token and returns a proper (non-None) expression while printing no
parse error (and, vacuously, never executing a UNARYOP fold branch). -/
def validLine (e : String) : Prop :=
  ∃ toks t,
    tokeniseAux (e.data.length + 1) e.data = some (toks, []) ∧
    toks ≠ [] ∧ t ≠ Expr.null ∧
    parse_expr (parseFuel toks.length) 0 toks = .ok t [] ⟨[], false⟩

/-- Safety invariant of a parse result relative to the input token list:
no UNARYOP fold branch executed, and a normal result is a token-safe
expression together with a suffix of the input as remaining tokens. -/
def POk (R : PRes) (ts : List String) : Prop :=
  resHit R = false ∧
  ∀ e ts2 fl, R = .ok e ts2 fl → tokSafe e = true ∧ ∃ p, ts = p ++ ts2

/-! ## Bridging lemmas: the mkRat-based arithmetic helpers agree with the
Mathlib rational operations -/

theorem qMk_eq (n d : Int) : qMk n d = (n : Rat) / (d : Rat) := by
  unfold qMk
  rcases lt_or_ge d 0 with hd | hd
  · rw [if_pos hd, Rat.mkRat_eq_divInt, Rat.divInt_eq_div,
      Int.ofNat_natAbs_of_nonpos hd.le]
    push_cast
    rw [neg_div_neg_eq]
  · rw [if_neg (not_lt.mpr hd), Rat.mkRat_eq_divInt, Rat.divInt_eq_div,
      Int.natAbs_of_nonneg hd]

theorem qOfInt_eq (n : Int) : qOfInt n = (n : Rat) := by
  unfold qOfInt
  exact Rat.mkRat_one n

theorem qSub_eq (x y : Rat) : qSub x y = x - y := by
  unfold qSub
  rw [qMk_eq]
  have hx : ((x.den : Int) : Rat) ≠ 0 := by
    exact_mod_cast Nat.cast_ne_zero.mpr x.den_nz
  have hy : ((y.den : Int) : Rat) ≠ 0 := by
    exact_mod_cast Nat.cast_ne_zero.mpr y.den_nz
  conv_rhs => rw [← Rat.num_div_den x, ← Rat.num_div_den y]
  push_cast at hx hy ⊢
  field_simp
  ring

theorem qMul_eq (x y : Rat) : qMul x y = x * y := by
  unfold qMul
  rw [qMk_eq]
  have hx : ((x.den : Int) : Rat) ≠ 0 := by
    exact_mod_cast Nat.cast_ne_zero.mpr x.den_nz
  have hy : ((y.den : Int) : Rat) ≠ 0 := by
    exact_mod_cast Nat.cast_ne_zero.mpr y.den_nz
  conv_rhs => rw [← Rat.num_div_den x, ← Rat.num_div_den y]
  push_cast at hx hy ⊢
  field_simp

theorem qDiv_eq (x y : Rat) : qDiv x y = x / y := by
  unfold qDiv
  rw [qMk_eq]
  have hx : ((x.den : Int) : Rat) ≠ 0 := by
    exact_mod_cast Nat.cast_ne_zero.mpr x.den_nz
  have hy : ((y.den : Int) : Rat) ≠ 0 := by
    exact_mod_cast Nat.cast_ne_zero.mpr y.den_nz
  rcases eq_or_ne y 0 with h0 | h0
  · subst h0
    simp
  · have hn : ((y.num : Int) : Rat) ≠ 0 := by
      exact_mod_cast Rat.num_ne_zero.mpr h0
    conv_rhs => rw [← Rat.num_div_den x, ← Rat.num_div_den y]
    push_cast at hx hy hn ⊢
    rw [div_div_div_eq]

theorem qNeg_eq (x : Rat) : qNeg x = -x := by
  unfold qNeg
  rw [qMk_eq]
  conv_rhs => rw [← Rat.num_div_den x]
  push_cast
  rw [neg_div]

theorem qFloor_eq (x : Rat) : qFloor x = Int.floor x := by
  unfold qFloor
  rw [Rat.floor_def]
  exact Int.fdiv_eq_ediv _ (Int.ofNat_nonneg x.den)

theorem pyFMod_eq (q : Rat) (m : Int) :
    pyFMod q m = q - m * Int.floor (q / (m : Rat)) := by
  unfold pyFMod
  simp only [qSub_eq, qDiv_eq, qOfInt_eq, qFloor_eq]
  push_cast
  ring

/-! ## Evaluator helper lemmas -/

theorem to_number_ne_nil {s : String} {v : Val} (h : to_number s = some v) :
    s ≠ "" := by
  intro he
  subst he
  have hn : to_number "" = none := by decide
  rw [hn] at h
  cases h

theorem strLeaf_truthy (s : String) : (strLeaf s).truthy = true := rfl

theorem strLeaf_is_empty {s : String} (h : s ≠ "") :
    (strLeaf s).is_empty = false := by
  simp [strLeaf, Expr.is_empty, tokTruthy, Tok.truthy, h]

theorem eval_strLeaf {s : String} {v : Val} (h : to_number s = some v) :
    evaluate (strLeaf s) = .ok [] (some v) := by
  have hne := to_number_ne_nil h
  have ht : tokTruthy (some (Tok.str s)) = true := by
    simp [tokTruthy, Tok.truthy, hne]
  show evaluate (.mk (some (.str s)) none .null .null) = .ok [] (some v)
  simp only [evaluate, ht, h]

theorem eval_mk_bin {op : String} {l r : Expr} {lx ly : List String}
    {x y : Option Val} (hop : op ≠ "")
    (hl : l.truthy = true) (hr : r.truthy = true)
    (hle : l.is_empty = false) (hre : r.is_empty = false)
    (hevl : evaluate l = .ok lx x) (hevr : evaluate r = .ok ly y) :
    evaluate (.mk none (some op) l r) = applyOp (some op) x y (lx ++ ly) := by
  have hopt : opTruthy (some op) = true := by simp [opTruthy, hop]
  simp only [evaluate, tokTruthy, hopt, hl, hr, hle, hre, hevl, hevr]
  simp

theorem eval_binNode {op sx sy : String} {vx vy : Val} (hop : op ≠ "")
    (hx : to_number sx = some vx) (hy : to_number sy = some vy) :
    evaluate (binNode op (strLeaf sx) (strLeaf sy)) =
      applyOp (some op) (some vx) (some vy) [] := by
  have hnx := to_number_ne_nil hx
  have hny := to_number_ne_nil hy
  exact eval_mk_bin hop (strLeaf_truthy sx) (strLeaf_truthy sy)
    (strLeaf_is_empty hnx) (strLeaf_is_empty hny)
    (eval_strLeaf hx) (eval_strLeaf hy)

/-! ## Tokenizer and parser lemmas about numeric-run tokens -/

theorem hasPfx_false_of_head {t0 c : Char} {rest l : List Char}
    (h : (t0 == c) = false) : hasPfx (t0 :: rest) (c :: l) = false := by
  simp [hasPfx, h]

theorem first_char_bne {c t0 : Char} (h : c ∈ numeralChars)
    (ht : t0 ∉ numeralChars) : (t0 == c) = false := by
  rw [beq_eq_false_iff_ne]
  rintro rfl
  exact ht h

/-- A character of the numeric class starts no predefined token. -/
theorem numrun_no_punct {c : Char} (hc : c ∈ numeralChars) (cs : List Char) :
    Predefined_Tokens.find? (fun t => hasPfx t.data (c :: cs)) = none := by
  rw [List.find?_eq_none]
  intro t ht
  simp only [Bool.not_eq_true]
  fin_cases ht
  · exact hasPfx_false_of_head (first_char_bne hc (by decide))
  · exact hasPfx_false_of_head (first_char_bne hc (by decide))
  · exact hasPfx_false_of_head (first_char_bne hc (by decide))
  · exact hasPfx_false_of_head (first_char_bne hc (by decide))
  · exact hasPfx_false_of_head (first_char_bne hc (by decide))
  · exact hasPfx_false_of_head (first_char_bne hc (by decide))
  · exact hasPfx_false_of_head (first_char_bne hc (by decide))
  · exact hasPfx_false_of_head (first_char_bne hc (by decide))
  · exact hasPfx_false_of_head (first_char_bne hc (by decide))
  · exact hasPfx_false_of_head (first_char_bne hc (by decide))
  · exact hasPfx_false_of_head (first_char_bne hc (by decide))
  · exact hasPfx_false_of_head (first_char_bne hc (by decide))
  · exact hasPfx_false_of_head (first_char_bne hc (by decide))
  · exact hasPfx_false_of_head (first_char_bne hc (by decide))

theorem numrun_no_ws {c : Char} (hc : c ∈ numeralChars) : isWs c = false := by
  fin_cases hc <;> decide

theorem key_not_numrun {s k : String} (hnum : ∀ c ∈ s.data, c ∈ numeralChars)
    (hk : (k == s) = true) (c : Char) (hc : c ∈ k.data)
    (hcn : c ∉ numeralChars) : False := by
  have he : k = s := beq_iff_eq.mp hk
  subst he
  exact hcn (hnum c hc)

/-- A nonempty string of numeric-run characters is not an operator key. -/
theorem numrun_not_key (s : String) (hnum : ∀ c ∈ s.data, c ∈ numeralChars) :
    inOpTable s = false := by
  unfold inOpTable lookupOp
  have hfind : Op_Table.find? (fun p => p.1 == s) = none := by
    rw [List.find?_eq_none]
    intro x hx
    have hOT : Op_Table =
        [("|", 2, 'L', 1), ("^", 2, 'L', 2), ("&", 2, 'L', 3),
         ("<<", 2, 'L', 4), (">>", 2, 'L', 4),
         ("+", 2, 'L', 5), ("-", 2, 'L', 5),
         ("*", 2, 'L', 6), ("/", 2, 'L', 6), ("%", 2, 'L', 6),
         ("+ x", 1, 'R', 7), ("- x", 1, 'R', 7), ("~ x", 1, 'R', 7),
         ("**", 2, 'R', 8)] := rfl
    rw [hOT] at hx
    simp only [List.mem_cons, List.not_mem_nil, or_false] at hx
    simp only [Bool.not_eq_true]
    rcases hx with rfl | rfl | rfl | rfl | rfl | rfl | rfl | rfl | rfl | rfl
      | rfl | rfl | rfl | rfl <;>
      refine Bool.eq_false_iff.mpr fun hk => ?_
    · exact key_not_numrun hnum hk '|' (by decide) (by decide)
    · exact key_not_numrun hnum hk '^' (by decide) (by decide)
    · exact key_not_numrun hnum hk '&' (by decide) (by decide)
    · exact key_not_numrun hnum hk '<' (by decide) (by decide)
    · exact key_not_numrun hnum hk '>' (by decide) (by decide)
    · exact key_not_numrun hnum hk '+' (by decide) (by decide)
    · exact key_not_numrun hnum hk '-' (by decide) (by decide)
    · exact key_not_numrun hnum hk '*' (by decide) (by decide)
    · exact key_not_numrun hnum hk '/' (by decide) (by decide)
    · exact key_not_numrun hnum hk '%' (by decide) (by decide)
    · exact key_not_numrun hnum hk ' ' (by decide) (by decide)
    · exact key_not_numrun hnum hk ' ' (by decide) (by decide)
    · exact key_not_numrun hnum hk ' ' (by decide) (by decide)
    · exact key_not_numrun hnum hk '*' (by decide) (by decide)
  rw [hfind]
  rfl

theorem takeWhile_append_of_all {p : Char → Bool} :
    ∀ (l r : List Char), (∀ c ∈ l, p c = true) →
      (l ++ r).takeWhile p = l ++ r.takeWhile p := by
  intro l r h
  induction l with
  | nil => simp
  | cons c cs ih =>
    have hc := h c (List.mem_cons_self c cs)
    simp only [List.cons_append, List.takeWhile_cons, hc, if_true]
    rw [ih fun x hx => h x (List.mem_cons_of_mem c hx)]

theorem dropWhile_append_of_all {p : Char → Bool} :
    ∀ (l r : List Char), (∀ c ∈ l, p c = true) →
      (l ++ r).dropWhile p = r.dropWhile p := by
  intro l r h
  induction l with
  | nil => simp
  | cons c cs ih =>
    have hc := h c (List.mem_cons_self c cs)
    simp only [List.cons_append, List.dropWhile_cons, hc, if_true]
    exact ih fun x hx => h x (List.mem_cons_of_mem c hx)

/-- One step of the tokenizer on a nonempty numeric run followed by a
delimiter: the run becomes a single token and the scan continues after
it. -/
theorem tokeniseAux_numrun_step (fuel : Nat) (cs rest : List Char)
    (hne : cs ≠ []) (hnum : ∀ c ∈ cs, c ∈ numeralChars)
    (hrest : rest = [] ∨ ∃ r rs, rest = r :: rs ∧ r ∉ numeralChars) :
    tokeniseAux (fuel + 1) (cs ++ rest) =
      match tokeniseAux fuel rest with
      | some (toks, rem) => some (String.mk cs :: toks, rem)
      | none => none := by
  obtain ⟨c, cs', rfl⟩ := List.exists_cons_of_ne_nil hne
  have hc := hnum c (List.mem_cons_self c cs')
  have hall : ∀ x ∈ c :: cs', (fun ch => numeralChars.contains ch) x = true := by
    intro x hx
    exact List.elem_iff.mpr (hnum x hx)
  have htw : ((c :: cs') ++ rest).takeWhile (fun ch => numeralChars.contains ch) =
      (c :: cs') ++ rest.takeWhile (fun ch => numeralChars.contains ch) :=
    takeWhile_append_of_all _ _ hall
  have hdw : ((c :: cs') ++ rest).dropWhile (fun ch => numeralChars.contains ch) = rest := by
    rw [dropWhile_append_of_all _ _ hall]
    rcases hrest with rfl | ⟨r, rs, rfl, hr⟩
    · simp
    · simp [List.dropWhile_cons, hr]
  have hrtw : rest.takeWhile (fun ch => numeralChars.contains ch) = [] := by
    rcases hrest with rfl | ⟨r, rs, rfl, hr⟩
    · simp
    · simp [List.takeWhile_cons, hr]
  rw [List.cons_append] at htw hdw
  show tokeniseAux (fuel + 1) (c :: (cs' ++ rest)) = _
  rw [tokeniseAux, numrun_no_ws hc, numrun_no_punct hc]
  simp only [htw, hrtw, hdw, List.append_nil]
  simp

/-- parse_atom turns a numeric-run token into a leaf and consumes it. -/
theorem parse_atom_numrun (fuel mp : Nat) (s : String) (rest : List String)
    (hne : s ≠ "") (hnum : ∀ c ∈ s.data, c ∈ numeralChars) :
    parse_atom (fuel + 1) mp (s :: rest) = .ok (strLeaf s) rest ⟨[], false⟩ := by
  have h1 : s ≠ "(" := by
    rintro rfl; exact absurd (hnum '(' (by decide)) (by decide)
  have h2 : s ≠ "-" := by
    rintro rfl; exact absurd (hnum '-' (by decide)) (by decide)
  have h3 : s ≠ "+" := by
    rintro rfl; exact absurd (hnum '+' (by decide)) (by decide)
  have h4 : s ≠ "~" := by
    rintro rfl; exact absurd (hnum '~' (by decide)) (by decide)
  have h5 : s ≠ "not" := by
    rintro rfl; exact absurd (hnum 'n' (by decide)) (by decide)
  have h6 : inOpTable s = false := numrun_not_key s hnum
  rw [parse_atom]
  simp [h1, h2, h3, h4, h5, h6, strLeaf]

/-- parse_expr on the three tokens [s, op, "0"], s a numeric literal and op
a left-associative binary operator of precedence 6, builds the binary
node op(s, 0). -/
theorem parse_expr_numrun_binop (f : Nat) (s op : String)
    (hne : s ≠ "") (hnum : ∀ c ∈ s.data, c ∈ numeralChars)
    (hlk : lookupOp op = some (BINARYOP, LEFT, 6)) :
    parse_expr (f + 6) 0 [s, op, "0"] =
      .ok (binNode op (strLeaf s) (strLeaf "0")) [] ⟨[], false⟩ := by
  have h6 : inOpTable s = false := numrun_not_key s hnum
  have hin : inOpTable op = true := by rw [inOpTable, hlk]; rfl
  have hst : tokTruthy (some (Tok.str s)) = true := by
    simp [tokTruthy, Tok.truthy, hne]
  rw [parse_expr]
  rw [parse_atom_numrun (f + 4) 0 s [op, "0"] hne hnum]
  simp only [parse_loop, strLeaf, Expr.tokv, Expr.is_token, hst, h6,
    Bool.and_false, Bool.false_eq_true, if_false, List.head?, hin, if_true]
  rw [parse_fold]
  rw [hlk]
  simp only [show ¬(6 < 0) from by decide, if_false, show LEFT = LEFT from rfl,
    if_true, List.drop]
  rw [show parse_expr (f + 3) (6 + 1) ["0"] = .ok (strLeaf "0") [] ⟨[], false⟩ from rfl]
  simp only [strLeaf, Expr.is_token, hst, show (BINARYOP = UNARYOP) = False from by
    simp [BINARYOP, UNARYOP]]
  simp [parse_loop, PRes.withFl, PFlags.seq, binNode, Expr.tokv, h6, hst]

/-- The tail " / 0" tokenizes to ["/", "0"] at any sufficient fuel. -/
theorem tok_tail_div (g : Nat) :
    tokeniseAux (g + 5) [' ', '/', ' ', '0'] = some (["/", "0"], []) := rfl

/-- The tail " % 0" tokenizes to ["%", "0"] at any sufficient fuel. -/
theorem tok_tail_mod (g : Nat) :
    tokeniseAux (g + 5) [' ', '%', ' ', '0'] = some (["%", "0"], []) := rfl

theorem data_ne_nil_of_ne_empty {s : String} (hne : s ≠ "") : s.data ≠ [] := by
  intro h0
  apply hne
  cases s with
  | mk d =>
    simp only at h0
    subst h0
    rfl

theorem tokenise_numrun_div (s : String) (hne : s ≠ "")
    (hnum : ∀ c ∈ s.data, c ∈ numeralChars) :
    tokenise (s ++ " / 0") = [s, "/", "0"] := by
  have hd : (s ++ " / 0").data = s.data ++ [' ', '/', ' ', '0'] := by
    rw [String.data_append]
  have hdne : s.data ≠ [] := data_ne_nil_of_ne_empty hne
  obtain ⟨c, cs', hcs⟩ := List.exists_cons_of_ne_nil hdne
  unfold tokenise
  rw [hd]
  rw [show (s.data ++ [' ', '/', ' ', '0']).length + 1 = (s.data.length + 4) + 1 by
    simp]
  rw [tokeniseAux_numrun_step (s.data.length + 4) s.data [' ', '/', ' ', '0']
    hdne hnum (Or.inr ⟨' ', ['/', ' ', '0'], rfl, by decide⟩)]
  rw [show s.data.length + 4 = cs'.length + 5 by rw [hcs]; simp]
  rw [tok_tail_div cs'.length]
  simp [show String.mk s.data = s from rfl]

theorem tokenise_numrun_mod (s : String) (hne : s ≠ "")
    (hnum : ∀ c ∈ s.data, c ∈ numeralChars) :
    tokenise (s ++ " % 0") = [s, "%", "0"] := by
  have hd : (s ++ " % 0").data = s.data ++ [' ', '%', ' ', '0'] := by
    rw [String.data_append]
  have hdne : s.data ≠ [] := data_ne_nil_of_ne_empty hne
  obtain ⟨c, cs', hcs⟩ := List.exists_cons_of_ne_nil hdne
  unfold tokenise
  rw [hd]
  rw [show (s.data ++ [' ', '%', ' ', '0']).length + 1 = (s.data.length + 4) + 1 by
    simp]
  rw [tokeniseAux_numrun_step (s.data.length + 4) s.data [' ', '%', ' ', '0']
    hdne hnum (Or.inr ⟨' ', ['%', ' ', '0'], rfl, by decide⟩)]
  rw [show s.data.length + 4 = cs'.length + 5 by rw [hcs]; simp]
  rw [tok_tail_mod cs'.length]
  simp [show String.mk s.data = s from rfl]

/-! ## The tokenizer scan: totality, suffix property and halting
characterization -/

/-- Every predefined token is one or two characters long, never zero. -/
theorem predefined_tok_len {t : String} (ht : t ∈ Predefined_Tokens) :
    1 ≤ t.data.length := by
  fin_cases ht <;> decide

theorem length_dropWhile_le (p : Char → Bool) :
    ∀ l : List Char, (l.dropWhile p).length ≤ l.length := by
  intro l
  induction l with
  | nil => simp
  | cons c cs ih =>
    rw [List.dropWhile_cons]
    split
    · exact le_trans ih (by simp)
    · simp

/-- The tokenizer scan, at fuel above the remaining length, always
succeeds; the unconsumed remainder is a suffix of the input, and it is
nonempty only when its head matches no rule of the scanner (not
whitespace, no predefined token, not a numeric-run character). -/
theorem tokeniseAux_spec :
    ∀ (fuel : Nat) (cs : List Char), cs.length < fuel →
      ∃ toks rest, tokeniseAux fuel cs = some (toks, rest) ∧
        (∃ pre, cs = pre ++ rest) ∧
        (rest = [] ∨ ∃ c cs', rest = c :: cs' ∧ isWs c = false ∧
          Predefined_Tokens.find? (fun t => hasPfx t.data (c :: cs')) = none ∧
          numeralChars.contains c = false) ∧
        (∀ t ∈ toks, t ∈ Predefined_Tokens ∨
          (t.data ≠ [] ∧ ∀ ch ∈ t.data, ch ∈ numeralChars)) := by
  intro fuel
  induction fuel with
  | zero => intro cs h; omega
  | succ fuel ih =>
    intro cs hlen
    match cs with
    | [] => exact ⟨[], [], rfl, ⟨[], rfl⟩, Or.inl rfl, by simp⟩
    | c :: cs' =>
      by_cases hws : isWs c = true
      · obtain ⟨toks, rest, h1, ⟨pre, hpre⟩, h3, h4⟩ := ih cs' (by
          simp only [List.length_cons] at hlen; omega)
        refine ⟨toks, rest, ?_, ⟨c :: pre, by rw [List.cons_append, ← hpre]⟩, h3, h4⟩
        rw [tokeniseAux, hws]
        simpa using h1
      · replace hws : isWs c = false := by simpa using hws
        cases hfind : Predefined_Tokens.find? (fun t => hasPfx t.data (c :: cs')) with
        | some t =>
          have htmem : t ∈ Predefined_Tokens := List.mem_of_find?_eq_some hfind
          have htlen : 1 ≤ t.data.length := predefined_tok_len htmem
          have hdrop : ((c :: cs').drop t.data.length).length < fuel := by
            rw [List.length_drop]
            simp only [List.length_cons] at hlen ⊢
            omega
          obtain ⟨toks, rest, h1, ⟨pre, hpre⟩, h3, h4⟩ := ih _ hdrop
          refine ⟨t :: toks, rest, ?_, ?_, h3, ?_⟩
          · rw [tokeniseAux, hws]
            simp only [Bool.false_eq_true, if_false, hfind, h1]
          · refine ⟨(c :: cs').take t.data.length ++ pre, ?_⟩
            rw [List.append_assoc, ← hpre, List.take_append_drop]
          · intro u hu
            rcases List.mem_cons.mp hu with rfl | hmem
            · exact Or.inl htmem
            · exact h4 u hmem
        | none =>
          by_cases hemp :
              ((c :: cs').takeWhile (fun ch => numeralChars.contains ch)).isEmpty = true
          · have hc : (numeralChars.contains c) = false := by
              by_contra hcon
              replace hcon : (numeralChars.contains c) = true := by simpa using hcon
              rw [List.takeWhile_cons, hcon] at hemp
              simp at hemp
            refine ⟨[], c :: cs', ?_, ⟨[], rfl⟩,
              Or.inr ⟨c, cs', rfl, hws, hfind, hc⟩, by simp⟩
            rw [tokeniseAux, hws]
            simp only [Bool.false_eq_true, if_false, hfind, hemp, if_true]
          · replace hemp :
                ((c :: cs').takeWhile (fun ch => numeralChars.contains ch)).isEmpty = false := by
              simpa using hemp
            have hc : (numeralChars.contains c) = true := by
              by_contra hcon
              replace hcon : (numeralChars.contains c) = false := by simpa using hcon
              rw [List.takeWhile_cons, hcon] at hemp
              simp at hemp
            have hlt : ((c :: cs').dropWhile (fun ch => numeralChars.contains ch)).length < fuel := by
              rw [List.dropWhile_cons, hc]
              simp only [if_true]
              have := length_dropWhile_le (fun ch => numeralChars.contains ch) cs'
              simp only [List.length_cons] at hlen
              omega
            obtain ⟨toks, rest, h1, ⟨pre, hpre⟩, h3, h4⟩ := ih _ hlt
            refine ⟨String.mk ((c :: cs').takeWhile (fun ch => numeralChars.contains ch)) :: toks,
              rest, ?_, ?_, h3, ?_⟩
            · rw [tokeniseAux, hws]
              simp only [Bool.false_eq_true, if_false, hfind, hemp, h1]
            · refine ⟨(c :: cs').takeWhile (fun ch => numeralChars.contains ch) ++ pre, ?_⟩
              rw [List.append_assoc, ← hpre, List.takeWhile_append_dropWhile]
            · intro u hu
              rcases List.mem_cons.mp hu with rfl | hmem
              · refine Or.inr ⟨?_, ?_⟩
                · intro hd
                  rw [show (String.mk ((c :: cs').takeWhile
                      (fun ch => numeralChars.contains ch))).data =
                    (c :: cs').takeWhile (fun ch => numeralChars.contains ch) from rfl] at hd
                  rw [hd] at hemp
                  simp at hemp
                · intro ch hch
                  rw [show (String.mk ((c :: cs').takeWhile
                      (fun ch => numeralChars.contains ch))).data =
                    (c :: cs').takeWhile (fun ch => numeralChars.contains ch) from rfl] at hch
                  exact List.elem_iff.mp (List.mem_takeWhile_imp (p := fun ch => numeralChars.contains ch) hch)
              · exact h4 u hmem

/-! ## The UNARYOP fold branches of parse_expr are dead on tokenizer
output -/

theorem punct_tokKindSafe : ∀ t ∈ Predefined_Tokens, tokKindSafe t = true := by
  decide

theorem numrun_tokKindSafe {t : String}
    (hnum : ∀ ch ∈ t.data, ch ∈ numeralChars) : tokKindSafe t = true := by
  have h := numrun_not_key t hnum
  cases hl : lookupOp t with
  | none => unfold tokKindSafe; rw [hl]
  | some v =>
    exfalso
    rw [inOpTable, hl] at h
    simp at h

/-- Every token tokenise produces is kind-safe. -/
theorem tokenise_tsSafe (line : String) :
    ∀ t ∈ tokenise line, tokKindSafe t = true := by
  obtain ⟨toks, rest, h1, _, _, h4⟩ :=
    tokeniseAux_spec (line.data.length + 1) line.data (by omega)
  have ht : tokenise line = toks := by rw [tokenise, h1]; rfl
  rw [ht]
  intro t htm
  rcases h4 t htm with hp | ⟨_, hnum⟩
  · exact punct_tokKindSafe t hp
  · exact numrun_tokKindSafe hnum

theorem resHit_withFl (fl : PFlags) (r : PRes) :
    resHit (PRes.withFl fl r) = (fl.hit || resHit r) := by
  cases r <;> rfl

theorem suffix_trans {α : Type} {a b c : List α}
    (h1 : ∃ p, a = p ++ b) (h2 : ∃ q, b = q ++ c) : ∃ r, a = r ++ c := by
  obtain ⟨p, rfl⟩ := h1
  obtain ⟨q, rfl⟩ := h2
  exact ⟨p ++ q, by rw [List.append_assoc]⟩

theorem suffix_drop {α : Type} (ts : List α) (n : Nat) :
    ∃ p, ts = p ++ ts.drop n :=
  ⟨ts.take n, (List.take_append_drop n ts).symm⟩

theorem tsSafe_mono {P : String → Prop} {a b : List String}
    (h : ∀ t ∈ a, P t) (hs : ∃ p, a = p ++ b) : ∀ t ∈ b, P t := by
  obtain ⟨p, rfl⟩ := hs
  intro t ht
  exact h t (List.mem_append_right p ht)

theorem POk_ok {e : Expr} {ts2 : List String} {fl : PFlags} {ts : List String}
    (hfl : fl.hit = false) (hsafe : tokSafe e = true)
    (hsuf : ∃ p, ts = p ++ ts2) : POk (.ok e ts2 fl) ts := by
  refine ⟨hfl, ?_⟩
  intro e2 ts3 fl2 heq
  cases heq
  exact ⟨hsafe, hsuf⟩

theorem POk_crash {m : String} {fl : PFlags} {ts : List String}
    (hfl : fl.hit = false) : POk (.crash m fl) ts := by
  refine ⟨hfl, ?_⟩
  intro e2 ts3 fl2 heq
  cases heq

theorem POk_fuelOut {fl : PFlags} {ts : List String}
    (hfl : fl.hit = false) : POk (.fuelOut fl) ts := by
  refine ⟨hfl, ?_⟩
  intro e2 ts3 fl2 heq
  cases heq

theorem POk_withFl {fl : PFlags} {R : PRes} {ts ts' : List String}
    (hfl : fl.hit = false) (h : POk R ts') (hsuf : ∃ p, ts = p ++ ts') :
    POk (PRes.withFl fl R) ts := by
  constructor
  · rw [resHit_withFl, hfl, Bool.false_or]
    exact h.1
  · intro e ts2 fl2 heq
    cases R with
    | ok e3 ts3 fl3 =>
      simp only [PRes.withFl] at heq
      cases heq
      obtain ⟨hsafe, hsuf2⟩ := h.2 _ _ _ rfl
      exact ⟨hsafe, suffix_trans hsuf hsuf2⟩
    | crash m3 fl3 => simp only [PRes.withFl] at heq; cases heq
    | fuelOut fl3 => simp only [PRes.withFl] at heq; cases heq

/-- The central parser invariant, by induction on fuel: on kind-safe token
lists (and token-safe left accumulators) none of the four parser functions
ever executes a UNARYOP fold branch, every normal result is a token-safe
expression, and the remaining tokens are a suffix of the input. -/
theorem parser_safe :
    ∀ fuel : Nat,
      (∀ mp ts, (∀ t ∈ ts, tokKindSafe t = true) →
        POk (parse_atom fuel mp ts) ts) ∧
      (∀ mp ts, (∀ t ∈ ts, tokKindSafe t = true) →
        POk (parse_expr fuel mp ts) ts) ∧
      (∀ mp lhs ts, (∀ t ∈ ts, tokKindSafe t = true) → tokSafe lhs = true →
        POk (parse_loop fuel mp lhs ts) ts) ∧
      (∀ mp op lhsCur ts, (∀ t ∈ ts, tokKindSafe t = true) →
        tokSafe lhsCur = true → tokKindSafe op = true →
        POk (parse_fold fuel mp op lhsCur ts) ts) := by
  intro fuel
  induction fuel with
  | zero =>
    refine ⟨?_, ?_, ?_, ?_⟩
    · intro mp ts _
      exact POk_fuelOut rfl
    · intro mp ts _
      exact POk_fuelOut rfl
    · intro mp lhs ts _ _
      exact POk_fuelOut rfl
    · intro mp op lhsCur ts _ _ _
      exact POk_fuelOut rfl
  | succ fuel ih =>
    obtain ⟨ihA, ihE, ihL, ihF⟩ := ih
    refine ⟨?_, ?_, ?_, ?_⟩
    -- parse_atom
    · intro mp ts hts
      cases ts with
      | nil => exact POk_ok rfl rfl ⟨[], rfl⟩
      | cons tok rest =>
        have htsr : ∀ t ∈ rest, tokKindSafe t = true :=
          fun t ht => hts t (List.mem_cons_of_mem _ ht)
        by_cases h1 : tok = "("
        · subst h1
          cases hres : parse_expr fuel 0 rest with
          | ok sub ts2 fl =>
            obtain ⟨hhit, hok⟩ := ihE 0 rest htsr
            rw [hres] at hhit
            obtain ⟨_, hsuf⟩ := hok sub ts2 fl hres
            have hsuffix : ∃ p, ("(" :: rest : List String) = p ++ ts2.drop 1 :=
              suffix_trans ⟨["("], rfl⟩ (suffix_trans hsuf (suffix_drop ts2 1))
            have hred : parse_atom (fuel + 1) mp ("(" :: rest) =
                .ok (.mk none none .null sub) (ts2.drop 1)
                  (if ts2.head? = some ")" then fl
                   else fl.seq ⟨["Parse error: unmatched \"(\""], false⟩) := by
              rw [parse_atom]
              simp only [hres, if_true, if_pos rfl]
            rw [hred]
            by_cases hh : ts2.head? = some ")"
            · rw [if_pos hh]
              exact POk_ok (by simpa [resHit] using hhit) rfl hsuffix
            · rw [if_neg hh]
              refine POk_ok ?_ rfl hsuffix
              have : fl.hit = false := by simpa [resHit] using hhit
              simp [PFlags.seq, this]
          | crash m fl =>
            obtain ⟨hhit, _⟩ := ihE 0 rest htsr
            rw [hres] at hhit
            have hred : parse_atom (fuel + 1) mp ("(" :: rest) = .crash m fl := by
              rw [parse_atom]
              simp only [hres, if_pos rfl, if_true]
            rw [hred]
            exact POk_crash (by simpa [resHit] using hhit)
          | fuelOut fl =>
            obtain ⟨hhit, _⟩ := ihE 0 rest htsr
            rw [hres] at hhit
            have hred : parse_atom (fuel + 1) mp ("(" :: rest) = .fuelOut fl := by
              rw [parse_atom]
              simp only [hres, if_pos rfl, if_true]
            rw [hred]
            exact POk_fuelOut (by simpa [resHit] using hhit)
        · by_cases h2 : tok = "-" ∨ tok = "+" ∨ tok = "~" ∨ tok = "not"
          · cases hlk : lookupOp (tok ++ " x") with
            | none =>
              have hred : parse_atom (fuel + 1) mp (tok :: rest) =
                  .crash "KeyError: Op_Table" ⟨[], false⟩ := by
                rw [parse_atom]
                simp only [if_neg h1, if_pos h2, hlk]
              rw [hred]
              exact POk_crash rfl
            | some info =>
              obtain ⟨k, a, prec⟩ := info
              cases hres : parse_expr fuel prec rest with
              | ok sub ts2 fl =>
                obtain ⟨hhit, hok⟩ := ihE prec rest htsr
                rw [hres] at hhit
                obtain ⟨_, hsuf⟩ := hok sub ts2 fl hres
                have hred : parse_atom (fuel + 1) mp (tok :: rest) =
                    .ok (.mk none (some (tok ++ " x")) .null sub) ts2 fl := by
                  rw [parse_atom]
                  simp only [if_neg h1, if_pos h2, hlk, hres]
                rw [hred]
                exact POk_ok (by simpa [resHit] using hhit) rfl
                  (suffix_trans ⟨[tok], rfl⟩ hsuf)
              | crash m fl =>
                obtain ⟨hhit, _⟩ := ihE prec rest htsr
                rw [hres] at hhit
                have hred : parse_atom (fuel + 1) mp (tok :: rest) = .crash m fl := by
                  rw [parse_atom]
                  simp only [if_neg h1, if_pos h2, hlk, hres]
                rw [hred]
                exact POk_crash (by simpa [resHit] using hhit)
              | fuelOut fl =>
                obtain ⟨hhit, _⟩ := ihE prec rest htsr
                rw [hres] at hhit
                have hred : parse_atom (fuel + 1) mp (tok :: rest) = .fuelOut fl := by
                  rw [parse_atom]
                  simp only [if_neg h1, if_pos h2, hlk, hres]
                rw [hred]
                exact POk_fuelOut (by simpa [resHit] using hhit)
          · by_cases h3 : inOpTable tok = true
            · have hred : parse_atom (fuel + 1) mp (tok :: rest) =
                  .ok (.mk none none .null .null) (tok :: rest)
                    ⟨["Parse error: expected an atom, not an operator \"" ++ tok ++ "\""],
                     false⟩ := by
                rw [parse_atom]
                simp only [if_neg h1, if_neg h2, h3, if_true]
              rw [hred]
              exact POk_ok rfl rfl ⟨[], rfl⟩
            · have h3f : inOpTable tok = false := by simpa using h3
              have hred : parse_atom (fuel + 1) mp (tok :: rest) =
                  .ok (.mk (some (.str tok)) none .null .null) rest ⟨[], false⟩ := by
                rw [parse_atom]
                simp only [if_neg h1, if_neg h2, h3f, Bool.false_eq_true, if_false]
              rw [hred]
              refine POk_ok rfl ?_ ⟨[tok], rfl⟩
              simp [tokSafe, Expr.tokv, h3f]
    -- parse_expr
    · intro mp ts hts
      cases hres : parse_atom fuel mp ts with
      | ok lhs ts2 fl =>
        obtain ⟨hhitA, hokA⟩ := ihA mp ts hts
        rw [hres] at hhitA
        obtain ⟨hsafeL, hsufL⟩ := hokA lhs ts2 fl hres
        have hts2 := tsSafe_mono hts hsufL
        have hred : parse_expr (fuel + 1) mp ts =
            PRes.withFl fl (parse_loop fuel mp lhs ts2) := by
          rw [parse_expr]
          simp only [hres]
        rw [hred]
        exact POk_withFl (by simpa [resHit] using hhitA)
          (ihL mp lhs ts2 hts2 hsafeL) hsufL
      | crash m fl =>
        obtain ⟨hhitA, _⟩ := ihA mp ts hts
        rw [hres] at hhitA
        have hred : parse_expr (fuel + 1) mp ts = .crash m fl := by
          rw [parse_expr]
          simp only [hres]
        rw [hred]
        exact POk_crash (by simpa [resHit] using hhitA)
      | fuelOut fl =>
        obtain ⟨hhitA, _⟩ := ihA mp ts hts
        rw [hres] at hhitA
        have hred : parse_expr (fuel + 1) mp ts = .fuelOut fl := by
          rw [parse_expr]
          simp only [hres]
        rw [hred]
        exact POk_fuelOut (by simpa [resHit] using hhitA)
    -- parse_loop
    · intro mp lhs ts hts hsafe
      have hltok : (match lhs.tokv with
          | some (.str s) => if lhs.is_token && inOpTable s then some s else none
          | _ => none) = (none : Option String) := by
        cases hv : lhs.tokv with
        | none => rfl
        | some tk =>
          cases tk with
          | str s =>
            have hin : inOpTable s = false := by
              unfold tokSafe at hsafe
              rw [hv] at hsafe
              simpa using hsafe
            simp [hin]
          | numv v => rfl
      cases ts with
      | nil =>
        have hred : parse_loop (fuel + 1) mp lhs [] = .ok lhs [] ⟨[], false⟩ := by
          rw [parse_loop]
          simp only [hltok, List.head?]
        rw [hred]
        exact POk_ok rfl hsafe ⟨[], rfl⟩
      | cons tok rest =>
        by_cases hin : inOpTable tok = true
        · have hkind : tokKindSafe tok = true := hts tok (List.mem_cons_self tok rest)
          have hred : parse_loop (fuel + 1) mp lhs (tok :: rest) =
              parse_fold fuel mp tok lhs (tok :: rest) := by
            rw [parse_loop]
            simp only [hltok, List.head?, hin, if_true]
          rw [hred]
          exact ihF mp tok lhs (tok :: rest) hts hsafe hkind
        · have hinf : inOpTable tok = false := by simpa using hin
          have hred : parse_loop (fuel + 1) mp lhs (tok :: rest) =
              .ok lhs (tok :: rest) ⟨[], false⟩ := by
            rw [parse_loop]
            simp only [hltok, List.head?, hinf, Bool.false_eq_true, if_false]
          rw [hred]
          exact POk_ok rfl hsafe ⟨[], rfl⟩
    -- parse_fold
    · intro mp op lhsCur ts hts hsafe hkind
      cases hlk : lookupOp op with
      | none =>
        have hred : parse_fold (fuel + 1) mp op lhsCur ts =
            .crash "KeyError: Op_Table" ⟨[], false⟩ := by
          rw [parse_fold]
          simp only [hlk]
        rw [hred]
        exact POk_crash rfl
      | some info =>
        obtain ⟨kind, assoc, prec⟩ := info
        have hbin : kind = BINARYOP := by
          unfold tokKindSafe at hkind
          rw [hlk] at hkind
          simpa using hkind
        subst hbin
        by_cases hpl : prec < mp
        · have hred : parse_fold (fuel + 1) mp op lhsCur ts = .ok lhsCur ts ⟨[], false⟩ := by
            rw [parse_fold]
            simp only [hlk, if_pos hpl]
          rw [hred]
          exact POk_ok rfl hsafe ⟨[], rfl⟩
        · cases hres : parse_expr fuel (if assoc = LEFT then prec + 1 else prec)
              (ts.drop 1) with
          | ok rhs ts2 fl =>
            have hE := ihE (if assoc = LEFT then prec + 1 else prec) (ts.drop 1)
              (tsSafe_mono hts (suffix_drop ts 1))
            have hflhit : fl.hit = false := by
              have := hE.1
              rw [hres] at this
              simpa [resHit] using this
            obtain ⟨_, hsufR⟩ := hE.2 rhs ts2 fl hres
            have hsuf2 : ∃ p, ts = p ++ ts2 := suffix_trans (suffix_drop ts 1) hsufR
            have hloop : ∀ newLhs : Expr, tokSafe newLhs = true →
                POk (PRes.withFl fl (parse_loop fuel mp newLhs ts2)) ts := by
              intro newLhs hN
              exact POk_withFl hflhit
                (ihL mp newLhs ts2 (tsSafe_mono hts hsuf2) hN) hsuf2
            cases lhsCur with
            | null =>
              have hred : parse_fold (fuel + 1) mp op .null ts =
                  .crash "AttributeError: NoneType has no attribute is_token" fl := by
                rw [parse_fold]
                simp only [hlk, if_neg hpl, hres,
                  show (BINARYOP = UNARYOP) = False by simp [BINARYOP, UNARYOP],
                  if_false]
              rw [hred]
              exact POk_crash hflhit
            | mk tk o l r =>
              rw [parse_fold]
              simp only [hlk, if_neg hpl, hres,
                show (BINARYOP = UNARYOP) = False by simp [BINARYOP, UNARYOP],
                if_false]
              by_cases hb1 : (Expr.mk tk o l r).is_token = true
              · rw [if_pos hb1]
                exact hloop _ rfl
              · rw [if_neg (by simpa using hb1)]
                by_cases hb2 : (Expr.mk tk o l r).is_parenth_expr = true
                · rw [if_pos hb2]
                  exact hloop _ rfl
                · rw [if_neg (by simpa using hb2)]
                  cases o with
                  | none => exact POk_crash hflhit
                  | some prev =>
                    cases hlk2 : lookupOp prev with
                    | none =>
                      simp only [Expr.opv, hlk2]
                      exact POk_crash hflhit
                    | some info2 =>
                      obtain ⟨pk, pa, pp⟩ := info2
                      simp only [Expr.opv, hlk2]
                      by_cases hcnd : pk = BINARYOP ∧ pa = assoc ∧ pp = prec
                      · rw [if_pos hcnd]
                        exact hloop _ rfl
                      · rw [if_neg hcnd]
                        simp only [show (BINARYOP = UNARYOP) = False by
                            simp [BINARYOP, UNARYOP], if_false,
                          show (BINARYOP = BINARYOP) = True by simp, if_true]
                        exact hloop _ rfl
          | crash m2 fl2 =>
            have hE := ihE (if assoc = LEFT then prec + 1 else prec) (ts.drop 1)
              (tsSafe_mono hts (suffix_drop ts 1))
            have hfl2 : fl2.hit = false := by
              have := hE.1
              rw [hres] at this
              simpa [resHit] using this
            have hred : parse_fold (fuel + 1) mp op lhsCur ts = .crash m2 fl2 := by
              rw [parse_fold]
              simp only [hlk, if_neg hpl, hres]
            rw [hred]
            exact POk_crash hfl2
          | fuelOut fl2 =>
            have hE := ihE (if assoc = LEFT then prec + 1 else prec) (ts.drop 1)
              (tsSafe_mono hts (suffix_drop ts 1))
            have hfl2 : fl2.hit = false := by
              have := hE.1
              rw [hres] at this
              simpa [resHit] using this
            have hred : parse_fold (fuel + 1) mp op lhsCur ts = .fuelOut fl2 := by
              rw [parse_fold]
              simp only [hlk, if_neg hpl, hres]
            rw [hred]
            exact POk_fuelOut hfl2

/-! ## Parenthesization round trip (claim C6): tokenizer lemmas -/

theorem find?_pred_congr {α : Type} (p q : α → Bool) :
    ∀ l : List α, (∀ a ∈ l, p a = q a) → l.find? p = l.find? q := by
  intro l h
  induction l with
  | nil => rfl
  | cons a as ih =>
    have ha := h a (List.mem_cons_self a as)
    cases hq : q a with
    | true =>
      have hp : p a = true := ha.trans hq
      rw [List.find?_cons_of_pos as hp, List.find?_cons_of_pos as hq]
    | false =>
      have hp : p a = false := ha.trans hq
      rw [List.find?_cons_of_neg as (by simp [hp]),
        List.find?_cons_of_neg as (by simp [hq])]
      exact ih fun x hx => h x (List.mem_cons_of_mem a hx)

theorem hasPfx_snd_append_rparen {b : Char} (hb : (b == ')') = false)
    (cs : List Char) : hasPfx [b] (cs ++ [')']) = hasPfx [b] cs := by
  cases cs with
  | nil => simp [hasPfx, hb]
  | cons d ds => rfl

/-- Appending a ")" character to the stream changes no predefined-token
match at the current position (no predefined token has ")" as its second
character). -/
theorem punct_find_append_rparen (c : Char) (cs : List Char) :
    Predefined_Tokens.find? (fun t => hasPfx t.data (c :: (cs ++ [')']))) =
      Predefined_Tokens.find? (fun t => hasPfx t.data (c :: cs)) := by
  apply find?_pred_congr
  intro t ht
  fin_cases ht
  · show (('*' == c) && hasPfx ['*'] (cs ++ [')'])) = (('*' == c) && hasPfx ['*'] cs)
    rw [hasPfx_snd_append_rparen (by decide)]
  · show (('<' == c) && hasPfx ['<'] (cs ++ [')'])) = (('<' == c) && hasPfx ['<'] cs)
    rw [hasPfx_snd_append_rparen (by decide)]
  · show (('>' == c) && hasPfx ['>'] (cs ++ [')'])) = (('>' == c) && hasPfx ['>'] cs)
    rw [hasPfx_snd_append_rparen (by decide)]
  · rfl
  · rfl
  · rfl
  · rfl
  · rfl
  · rfl
  · rfl
  · rfl
  · rfl
  · rfl
  · rfl

theorem takeWhile_append_rparen (l : List Char) :
    (l ++ [')']).takeWhile (fun ch => numeralChars.contains ch) =
      l.takeWhile (fun ch => numeralChars.contains ch) := by
  induction l with
  | nil => decide
  | cons d ds ih =>
    simp only [List.cons_append, List.takeWhile_cons]
    by_cases hd : numeralChars.contains d = true
    · rw [if_pos hd, ih, if_pos hd]
    · rw [if_neg hd, if_neg hd]

theorem dropWhile_append_rparen (l : List Char) :
    (l ++ [')']).dropWhile (fun ch => numeralChars.contains ch) =
      l.dropWhile (fun ch => numeralChars.contains ch) ++ [')'] := by
  induction l with
  | nil => decide
  | cons d ds ih =>
    simp only [List.cons_append, List.dropWhile_cons]
    by_cases hd : numeralChars.contains d = true
    · rw [if_pos hd, ih, if_pos hd]
    · rw [if_neg hd, if_neg hd]
      rfl

theorem takeWhile_cons_append_rparen (c : Char) (cs : List Char) :
    (c :: (cs ++ [')'])).takeWhile (fun ch => numeralChars.contains ch) =
      (c :: cs).takeWhile (fun ch => numeralChars.contains ch) :=
  takeWhile_append_rparen (c :: cs)

theorem dropWhile_cons_append_rparen (c : Char) (cs : List Char) :
    (c :: (cs ++ [')'])).dropWhile (fun ch => numeralChars.contains ch) =
      (c :: cs).dropWhile (fun ch => numeralChars.contains ch) ++ [')'] :=
  dropWhile_append_rparen (c :: cs)

theorem hasPfx_length_le : ∀ {a b : List Char}, hasPfx a b = true →
    a.length ≤ b.length := by
  intro a
  induction a with
  | nil =>
    intro b _
    simp
  | cons x xs ih =>
    intro b h
    cases b with
    | nil => simp [hasPfx] at h
    | cons y ys =>
      simp only [hasPfx, Bool.and_eq_true] at h
      simpa [List.length_cons] using Nat.succ_le_succ (ih h.2)

/-- Prepending a "(" character emits a "(" token and continues. -/
theorem tokeniseAux_lparen (f : Nat) (l : List Char) :
    tokeniseAux (f + 1) ('(' :: l) =
      match tokeniseAux f l with
      | some (toks, rest) => some ("(" :: toks, rest)
      | none => none := rfl

/-- Appending a ")" character to a fully consumed stream appends a ")"
token to the scan result. -/
theorem tokeniseAux_append_rparen :
    ∀ (f : Nat) (l : List Char) (toks : List String),
      tokeniseAux f l = some (toks, []) →
      tokeniseAux (f + 1) (l ++ [')']) = some (toks ++ [")"], []) := by
  intro f
  induction f with
  | zero =>
    intro l toks h
    simp [tokeniseAux] at h
  | succ f ih =>
    intro l toks h
    cases l with
    | nil =>
      rw [tokeniseAux] at h
      obtain rfl : toks = ([] : List String) := by
        injection h with h1
        injection h1 with h2 h3
        exact h2.symm
      show tokeniseAux (f + 1 + 1) [')'] = some ([")"], [])
      rfl
    | cons c cs =>
      rw [tokeniseAux] at h
      by_cases hws : isWs c = true
      · rw [if_pos hws] at h
        have hext := ih cs toks h
        show tokeniseAux (f + 1 + 1) (c :: (cs ++ [')'])) = some (toks ++ [")"], [])
        rw [tokeniseAux, if_pos hws]
        exact hext
      · rw [if_neg hws] at h
        show tokeniseAux (f + 1 + 1) (c :: (cs ++ [')'])) = some (toks ++ [")"], [])
        rw [tokeniseAux, if_neg hws, punct_find_append_rparen]
        cases hfind : Predefined_Tokens.find? (fun t => hasPfx t.data (c :: cs)) with
        | some t =>
          simp only [hfind] at h ⊢
          cases hin : tokeniseAux f ((c :: cs).drop t.data.length) with
          | none =>
            simp only [hin] at h
            exact Option.noConfusion h
          | some pr =>
            obtain ⟨toks', rest'⟩ := pr
            simp only [hin] at h
            have h1 : t :: toks' = toks ∧ rest' = [] := by
              injection h with hp
              injection hp with ha hb
              exact ⟨ha, hb⟩
            obtain ⟨htoks, hrest'⟩ := h1
            subst hrest'
            have hext := ih _ _ hin
            have hpfx : hasPfx t.data (c :: cs) = true := by
              have := List.find?_some hfind
              simpa using this
            have hdrop : (c :: (cs ++ [')'])).drop t.data.length =
                ((c :: cs).drop t.data.length) ++ [')'] := by
              rw [show (c :: (cs ++ [')'])) = (c :: cs) ++ [')'] from rfl]
              rw [List.drop_append_eq_append_drop]
              rw [Nat.sub_eq_zero_of_le (hasPfx_length_le hpfx), List.drop_zero]
            rw [hdrop]
            simp only [hext]
            rw [← htoks]
            rfl
        | none =>
          simp only [hfind] at h ⊢
          rw [takeWhile_cons_append_rparen, dropWhile_cons_append_rparen]
          by_cases hemp :
              ((c :: cs).takeWhile (fun ch => numeralChars.contains ch)).isEmpty = true
          · rw [if_pos hemp] at h
            injection h with hp
            injection hp with h1 h2
            exact absurd h2 (List.cons_ne_nil c cs)
          · rw [if_neg hemp] at h
            rw [if_neg hemp]
            cases hin : tokeniseAux f
                ((c :: cs).dropWhile (fun ch => numeralChars.contains ch)) with
            | none =>
              simp only [hin] at h
              exact Option.noConfusion h
            | some pr =>
              obtain ⟨toks', rest'⟩ := pr
              simp only [hin] at h
              have h1 :
                  String.mk ((c :: cs).takeWhile (fun ch => numeralChars.contains ch))
                    :: toks' = toks ∧ rest' = [] := by
                injection h with hp
                injection hp with ha hb
                exact ⟨ha, hb⟩
              obtain ⟨htoks, hrest'⟩ := h1
              subst hrest'
              have hext := ih _ _ hin
              simp only [hext]
              rw [← htoks]
              rfl

/-! ## Parenthesization round trip (claim C6): parser lemmas -/

/-- parse_expr on an empty token list either runs out of fuel or returns
the empty expression with the end-of-source error message. -/
theorem parse_expr_nil (f mp : Nat) :
    parse_expr f mp [] = .fuelOut ⟨[], false⟩ ∨
      parse_expr f mp [] =
        .ok (.mk none none .null .null) []
          ⟨["Parse error: source ended unexpectedly"], false⟩ := by
  match f with
  | 0 => exact Or.inl rfl
  | 1 => exact Or.inl rfl
  | f + 2 => exact Or.inr rfl

theorem seq_eq_clean {a b : PFlags} (h : a.seq b = ⟨[], false⟩) :
    a = ⟨[], false⟩ ∧ b = ⟨[], false⟩ := by
  cases a with
  | mk am ah =>
    cases b with
    | mk bm bh =>
      simp only [PFlags.seq, PFlags.mk.injEq] at h
      obtain ⟨hm, hh⟩ := h
      obtain ⟨ha, hb⟩ := List.append_eq_nil.mp hm
      have hab : ah = false ∧ bh = false := by
        cases ah <;> cases bh <;> simp_all
      obtain ⟨ha2, hb2⟩ := hab
      subst ha hb ha2 hb2
      exact ⟨rfl, rfl⟩

/-- A flag-prefixed result is a clean success only if both the prefix
flags and the inner result are clean. -/
theorem withFl_ok_clean {fl : PFlags} {R : PRes} {e : Expr} {ts2 : List String}
    (h : PRes.withFl fl R = .ok e ts2 ⟨[], false⟩) :
    fl = ⟨[], false⟩ ∧ R = .ok e ts2 ⟨[], false⟩ := by
  cases R with
  | ok e3 ts3 fl3 =>
    simp only [PRes.withFl] at h
    injection h with he hts hfl
    obtain ⟨h1, h2⟩ := seq_eq_clean hfl
    subst he hts h1 h2
    exact ⟨rfl, rfl⟩
  | crash m fl3 => simp [PRes.withFl] at h
  | fuelOut fl3 => simp [PRes.withFl] at h

/-- Evaluating a parenthesis node evaluates the inner expression
(Calc.py line 165). -/
theorem evaluate_paren (t : Expr) (ht : t.truthy = true) :
    evaluate (.mk none none .null t) = evaluate t := by
  obtain ⟨a, b, c, d, rfl⟩ : ∃ a b c d, t = Expr.mk a b c d := by
    cases t with
    | null => exact absurd ht (by simp [Expr.truthy])
    | mk a b c d => exact ⟨a, b, c, d, rfl⟩
  rfl

/-- parse_loop on a finished parenthesized node with no tokens left
returns it unchanged. -/
theorem parse_loop_done (g mp : Nat) (t : Expr) :
    parse_loop (g + 1) mp (.mk none none .null t) [] =
      .ok (.mk none none .null t) [] ⟨[], false⟩ := rfl

/-- Parsing "(" ++ L with two extra fuel steps wraps the parse of L
(which must consume everything up to a final ")") in a parenthesis
node. -/
theorem parse_expr_lparen_step (m : Nat) (L : List String) (t : Expr)
    (h : parse_expr m 0 L = .ok t [")"] ⟨[], false⟩) :
    parse_expr (m + 2) 0 ("(" :: L) = .ok (.mk none none .null t) [] ⟨[], false⟩ := by
  rw [parse_expr, parse_atom]
  simp only [if_pos rfl, eq_self_iff_true, if_true, h, List.head?_cons,
    List.drop_succ_cons, List.drop_nil]
  rw [parse_loop_done]
  rfl

/-- Unfolding equation of parse_atom at positive fuel on an empty token
list. -/
theorem parse_atom_nil_eq (f mp : Nat) :
    parse_atom (f + 1) mp [] =
      .ok (.mk none none .null .null) []
        ⟨["Parse error: source ended unexpectedly"], false⟩ := rfl

/-- Unfolding equation of parse_atom at positive fuel on a nonempty token
list. -/
theorem parse_atom_cons (f mp : Nat) (tok : String) (rts : List String) :
    parse_atom (f + 1) mp (tok :: rts) =
      (if tok = "(" then
        match parse_expr f 0 rts with
        | .ok sub ts2 fl =>
          .ok (.mk none none .null sub) (ts2.drop 1)
            (if ts2.head? = some ")" then fl
             else fl.seq ⟨["Parse error: unmatched \"(\""], false⟩)
        | r => r
      else if tok = "-" ∨ tok = "+" ∨ tok = "~" ∨ tok = "not" then
        match lookupOp (tok ++ " x") with
        | none => .crash "KeyError: Op_Table" ⟨[], false⟩
        | some (_, _, precedence) =>
          match parse_expr f precedence rts with
          | .ok sub ts2 fl => .ok (.mk none (some (tok ++ " x")) .null sub) ts2 fl
          | r => r
      else if inOpTable tok then
        .ok (.mk none none .null .null) (tok :: rts)
          ⟨["Parse error: expected an atom, not an operator \"" ++ tok ++ "\""], false⟩
      else
        .ok (.mk (some (.str tok)) none .null .null) rts ⟨[], false⟩) := rfl

/-- Unfolding equation of parse_expr at positive fuel. -/
theorem parse_expr_succ (f mp : Nat) (ts : List String) :
    parse_expr (f + 1) mp ts =
      match parse_atom f mp ts with
      | .ok lhs ts2 fl => PRes.withFl fl (parse_loop f mp lhs ts2)
      | r => r := rfl

/-- Unfolding equation of parse_loop at positive fuel. -/
theorem parse_loop_succ (f mp : Nat) (lhs : Expr) (ts : List String) :
    parse_loop (f + 1) mp lhs ts =
      match (match lhs.tokv with
             | some (.str s) => if lhs.is_token && inOpTable s then some s else none
             | _ => none) with
      | some s => parse_fold f mp s .null ts
      | none =>
        match ts.head? with
        | none => .ok lhs ts ⟨[], false⟩
        | some tok =>
          if inOpTable tok then parse_fold f mp tok lhs ts
          else .ok lhs ts ⟨[], false⟩ := rfl

/-- Unfolding equation of parse_fold at positive fuel. -/
theorem parse_fold_succ (f mp : Nat) (op : String) (lhsCur : Expr) (ts : List String) :
    parse_fold (f + 1) mp op lhsCur ts =
      match lookupOp op with
      | none => .crash "KeyError: Op_Table" ⟨[], false⟩
      | some (kind, assoc, precedence) =>
        if precedence < mp then .ok lhsCur ts ⟨[], false⟩
        else
          match parse_expr f (if assoc = LEFT then precedence + 1 else precedence)
              (ts.drop 1) with
          | .ok rhs ts2 fl =>
            if kind = UNARYOP then
              PRes.withFl (fl.seq ⟨[], true⟩)
                (parse_loop f mp (.mk none (some op) .null rhs) ts2)
            else
              match lhsCur with
              | .null => .crash "AttributeError: NoneType has no attribute is_token" fl
              | l =>
                if l.is_token then
                  PRes.withFl fl (parse_loop f mp (.mk none (some op) l rhs) ts2)
                else if l.is_parenth_expr then
                  PRes.withFl fl (parse_loop f mp (.mk none (some op) l.rightv rhs) ts2)
                else
                  match l.opv with
                  | none => .crash "KeyError: Op_Table[None]" fl
                  | some prev_op =>
                    match lookupOp prev_op with
                    | none => .crash "KeyError: Op_Table" fl
                    | some (pk, pa, pp) =>
                      if pk = BINARYOP ∧ pa = assoc ∧ pp = precedence then
                        PRes.withFl fl (parse_loop f mp (.mk none (some op) l rhs) ts2)
                      else if kind = UNARYOP then
                        .crash "TypeError: Expr() got an unexpected keyword argument"
                          (fl.seq ⟨[], true⟩)
                      else if kind = BINARYOP then
                        PRes.withFl fl (parse_loop f mp (.mk none (some op) l rhs) ts2)
                      else
                        PRes.withFl fl (parse_loop f mp l ts2)
          | r => r := rfl

/-- Extension of the operator-candidate tail of parse_loop: given that the
fold step extends, so does the candidate search over the current token. -/
theorem parse_loop_tail_ext (f g mp : Nat) (lhs : Expr) (ts rest : List String)
    (e : Expr) (ts2 : List String)
    (hrest : rest = [] ∨ ∃ r rs, rest = r :: rs ∧ inOpTable r = false)
    (hF : ∀ tok, parse_fold f mp tok lhs ts = .ok e ts2 ⟨[], false⟩ →
      parse_fold g mp tok lhs (ts ++ rest) = .ok e (ts2 ++ rest) ⟨[], false⟩)
    (h : (match ts.head? with
          | none => (.ok lhs ts ⟨[], false⟩ : PRes)
          | some tok =>
            if inOpTable tok then parse_fold f mp tok lhs ts
            else .ok lhs ts ⟨[], false⟩) = .ok e ts2 ⟨[], false⟩) :
    (match (ts ++ rest).head? with
     | none => (.ok lhs (ts ++ rest) ⟨[], false⟩ : PRes)
     | some tok =>
       if inOpTable tok then parse_fold g mp tok lhs (ts ++ rest)
       else .ok lhs (ts ++ rest) ⟨[], false⟩) = .ok e (ts2 ++ rest) ⟨[], false⟩ := by
  cases ts with
  | nil =>
    simp only [List.head?_nil] at h
    injection h with he hts hfl
    subst he hts
    rcases hrest with rfl | ⟨r, rs, rfl, hr⟩
    · rfl
    · simp only [List.nil_append, List.head?_cons]
      rw [if_neg (by simp [hr])]
  | cons tok0 rts =>
    simp only [List.head?_cons] at h
    by_cases hop : inOpTable tok0 = true
    · rw [if_pos hop] at h
      have hext := hF tok0 h
      simp only [List.cons_append, List.head?_cons]
      rw [if_pos hop]
      exact hext
    · rw [if_neg hop] at h
      injection h with he hts hfl
      subst he hts
      simp only [List.cons_append, List.head?_cons]
      rw [if_neg hop]

/-- Extension invariance of the parser, by induction on fuel: a clean
success (no message printed, no UNARYOP branch executed) is unchanged when
the fuel grows and a token sequence whose head is not an operator key is
appended behind the consumed input. -/
theorem parser_ext :
    ∀ f : Nat,
      (∀ g mp ts rest e ts2, f ≤ g →
        (rest = [] ∨ ∃ r rs, rest = r :: rs ∧ inOpTable r = false) →
        parse_atom f mp ts = .ok e ts2 ⟨[], false⟩ →
        parse_atom g mp (ts ++ rest) = .ok e (ts2 ++ rest) ⟨[], false⟩) ∧
      (∀ g mp ts rest e ts2, f ≤ g →
        (rest = [] ∨ ∃ r rs, rest = r :: rs ∧ inOpTable r = false) →
        parse_expr f mp ts = .ok e ts2 ⟨[], false⟩ →
        parse_expr g mp (ts ++ rest) = .ok e (ts2 ++ rest) ⟨[], false⟩) ∧
      (∀ g mp lhs ts rest e ts2, f ≤ g →
        (rest = [] ∨ ∃ r rs, rest = r :: rs ∧ inOpTable r = false) →
        parse_loop f mp lhs ts = .ok e ts2 ⟨[], false⟩ →
        parse_loop g mp lhs (ts ++ rest) = .ok e (ts2 ++ rest) ⟨[], false⟩) ∧
      (∀ g mp op lhsCur ts rest e ts2, f ≤ g →
        (rest = [] ∨ ∃ r rs, rest = r :: rs ∧ inOpTable r = false) →
        parse_fold f mp op lhsCur ts = .ok e ts2 ⟨[], false⟩ →
        parse_fold g mp op lhsCur (ts ++ rest) = .ok e (ts2 ++ rest) ⟨[], false⟩) := by
  intro f
  induction f with
  | zero =>
    refine ⟨?_, ?_, ?_, ?_⟩
    · intro g mp ts rest e ts2 _ _ h
      exact PRes.noConfusion h
    · intro g mp ts rest e ts2 _ _ h
      exact PRes.noConfusion h
    · intro g mp lhs ts rest e ts2 _ _ h
      exact PRes.noConfusion h
    · intro g mp op lhsCur ts rest e ts2 _ _ h
      exact PRes.noConfusion h
  | succ f ih =>
    obtain ⟨ihA, ihE, ihL, ihF⟩ := ih
    refine ⟨?_, ?_, ?_, ?_⟩
    -- parse_atom
    · intro g mp ts rest e ts2 hfg hrest h
      cases g with
      | zero => exact absurd hfg (by omega)
      | succ g =>
        have hfg' : f ≤ g := Nat.le_of_succ_le_succ hfg
        cases ts with
        | nil =>
          rw [parse_atom_nil_eq] at h
          injection h with he hts hfl
          injection hfl with hm hh
          exact List.noConfusion hm
        | cons tok rts =>
          rw [parse_atom_cons] at h
          show parse_atom (g + 1) mp (tok :: (rts ++ rest)) = .ok e (ts2 ++ rest) ⟨[], false⟩
          rw [parse_atom_cons]
          by_cases h1 : tok = "("
          · subst h1
            rw [if_pos rfl] at h
            rw [if_pos rfl]
            cases hres : parse_expr f 0 rts with
            | ok sub ts2' fl =>
              simp only [hres] at h
              by_cases hh : ts2'.head? = some ")"
              · rw [if_pos hh] at h
                injection h with he hts hfl
                subst he hts hfl
                obtain ⟨tl, rfl⟩ : ∃ tl, ts2' = ")" :: tl := by
                  cases ts2' with
                  | nil => simp at hh
                  | cons a tl =>
                    simp only [List.head?_cons, Option.some.injEq] at hh
                    exact ⟨tl, by rw [hh]⟩
                have hext := ihE g 0 rts rest sub (")" :: tl) hfg' hrest hres
                simp only [hext, List.cons_append, List.head?_cons,
                  List.drop_succ_cons, List.drop_zero]
                simp
              · rw [if_neg hh] at h
                injection h with he hts hfl
                obtain ⟨-, habs⟩ := seq_eq_clean hfl
                exact absurd habs (by simp)
            | crash m2 fl2 =>
              simp only [hres] at h
              exact PRes.noConfusion h
            | fuelOut fl2 =>
              simp only [hres] at h
              exact PRes.noConfusion h
          · rw [if_neg h1] at h
            rw [if_neg h1]
            by_cases h2 : tok = "-" ∨ tok = "+" ∨ tok = "~" ∨ tok = "not"
            · rw [if_pos h2] at h
              rw [if_pos h2]
              cases hlk : lookupOp (tok ++ " x") with
              | none =>
                simp only [hlk] at h
                exact PRes.noConfusion h
              | some info =>
                obtain ⟨k, a2, prec⟩ := info
                simp only [hlk] at h ⊢
                cases hres : parse_expr f prec rts with
                | ok sub ts2' fl =>
                  simp only [hres] at h
                  injection h with he hts hfl
                  subst he hts hfl
                  have hext := ihE g prec rts rest sub ts2' hfg' hrest hres
                  simp only [hext]
                | crash m2 fl2 =>
                  simp only [hres] at h
                  exact PRes.noConfusion h
                | fuelOut fl2 =>
                  simp only [hres] at h
                  exact PRes.noConfusion h
            · rw [if_neg h2] at h
              rw [if_neg h2]
              by_cases h3 : inOpTable tok = true
              · rw [if_pos h3] at h
                injection h with he hts hfl
                injection hfl with hm hh
                exact List.noConfusion hm
              · rw [if_neg h3] at h
                rw [if_neg h3]
                injection h with he hts hfl
                subst he hts
                rfl
    -- parse_expr
    · intro g mp ts rest e ts2 hfg hrest h
      cases g with
      | zero => exact absurd hfg (by omega)
      | succ g =>
        have hfg' : f ≤ g := Nat.le_of_succ_le_succ hfg
        rw [parse_expr_succ] at h
        rw [parse_expr_succ]
        cases hres : parse_atom f mp ts with
        | ok lhs ts2' fl =>
          simp only [hres] at h
          obtain ⟨hfl, hloop⟩ := withFl_ok_clean h
          subst hfl
          have hextA := ihA g mp ts rest lhs ts2' hfg' hrest hres
          have hextL := ihL g mp lhs ts2' rest e ts2 hfg' hrest hloop
          simp only [hextA, hextL]
          rfl
        | crash m2 fl2 =>
          simp only [hres] at h
          exact PRes.noConfusion h
        | fuelOut fl2 =>
          simp only [hres] at h
          exact PRes.noConfusion h
    -- parse_loop
    · intro g mp lhs ts rest e ts2 hfg hrest h
      cases g with
      | zero => exact absurd hfg (by omega)
      | succ g =>
        have hfg' : f ≤ g := Nat.le_of_succ_le_succ hfg
        rw [parse_loop_succ] at h
        rw [parse_loop_succ]
        cases hlt : lhs.tokv with
        | none =>
          simp only [hlt] at h ⊢
          exact parse_loop_tail_ext f g mp lhs ts rest e ts2 hrest
            (fun tok htok => ihF g mp tok lhs ts rest e ts2 hfg' hrest htok) h
        | some tk =>
          cases tk with
          | numv v =>
            simp only [hlt] at h ⊢
            exact parse_loop_tail_ext f g mp lhs ts rest e ts2 hrest
              (fun tok htok => ihF g mp tok lhs ts rest e ts2 hfg' hrest htok) h
          | str s =>
            simp only [hlt] at h ⊢
            by_cases hcond : (lhs.is_token && inOpTable s) = true
            · simp only [if_pos hcond] at h ⊢
              exact ihF g mp s .null ts rest e ts2 hfg' hrest h
            · simp only [if_neg hcond] at h ⊢
              exact parse_loop_tail_ext f g mp lhs ts rest e ts2 hrest
                (fun tok htok => ihF g mp tok lhs ts rest e ts2 hfg' hrest htok) h
    -- parse_fold
    · intro g mp op lhsCur ts rest e ts2 hfg hrest h
      cases g with
      | zero => exact absurd hfg (by omega)
      | succ g =>
        have hfg' : f ≤ g := Nat.le_of_succ_le_succ hfg
        rw [parse_fold_succ] at h
        rw [parse_fold_succ]
        cases hlk : lookupOp op with
        | none =>
          simp only [hlk] at h
          exact PRes.noConfusion h
        | some info =>
          obtain ⟨kind, assoc, prec⟩ := info
          simp only [hlk] at h ⊢
          by_cases hbrk : prec < mp
          · rw [if_pos hbrk] at h
            rw [if_pos hbrk]
            injection h with he hts hfl
            subst he hts
            rfl
          · rw [if_neg hbrk] at h
            rw [if_neg hbrk]
            cases ts with
            | nil =>
              exfalso
              simp only [List.drop_nil] at h
              rcases parse_expr_nil f (if assoc = LEFT then prec + 1 else prec) with
                hnil | hnil
              · simp only [hnil] at h
                exact PRes.noConfusion h
              · simp only [hnil] at h
                by_cases hk : kind = UNARYOP
                · rw [if_pos hk] at h
                  obtain ⟨habs, -⟩ := withFl_ok_clean h
                  have hc := congrArg PFlags.hit habs
                  simp [PFlags.seq] at hc
                · rw [if_neg hk] at h
                  cases lhsCur with
                  | null => exact PRes.noConfusion h
                  | mk lt lo ll lr =>
                    by_cases hbt : (Expr.mk lt lo ll lr).is_token = true
                    · simp only [if_pos hbt] at h
                      obtain ⟨habs, -⟩ := withFl_ok_clean h
                      have hc := congrArg PFlags.msgs habs
                      simp [PFlags.seq] at hc
                    · by_cases hbp : (Expr.mk lt lo ll lr).is_parenth_expr = true
                      · simp only [if_neg hbt, if_pos hbp] at h
                        obtain ⟨habs, -⟩ := withFl_ok_clean h
                        have hc := congrArg PFlags.msgs habs
                        simp [PFlags.seq] at hc
                      · simp only [if_neg hbt, if_neg hbp, Expr.opv] at h
                        cases lo with
                        | none => exact PRes.noConfusion h
                        | some prev_op =>
                          cases hplk : lookupOp prev_op with
                          | none =>
                            simp only [hplk] at h
                            exact PRes.noConfusion h
                          | some pinfo =>
                            obtain ⟨pk, pa, pp⟩ := pinfo
                            simp only [hplk] at h
                            by_cases hpc : pk = BINARYOP ∧ pa = assoc ∧ pp = prec
                            · rw [if_pos hpc] at h
                              obtain ⟨habs, -⟩ := withFl_ok_clean h
                              have hc := congrArg PFlags.msgs habs
                              simp [PFlags.seq] at hc
                            · rw [if_neg hpc, if_neg hk] at h
                              by_cases hkb : kind = BINARYOP
                              · rw [if_pos hkb] at h
                                obtain ⟨habs, -⟩ := withFl_ok_clean h
                                have hc := congrArg PFlags.msgs habs
                                simp [PFlags.seq] at hc
                              · rw [if_neg hkb] at h
                                obtain ⟨habs, -⟩ := withFl_ok_clean h
                                have hc := congrArg PFlags.msgs habs
                                simp [PFlags.seq] at hc
            | cons tok0 rts =>
              simp only [List.drop_succ_cons, List.drop_zero] at h
              simp only [List.cons_append, List.drop_succ_cons, List.drop_zero]
              cases hres : parse_expr f (if assoc = LEFT then prec + 1 else prec) rts with
              | ok rhs ts2' fl =>
                simp only [hres] at h
                by_cases hk : kind = UNARYOP
                · rw [if_pos hk] at h
                  exfalso
                  obtain ⟨habs, -⟩ := withFl_ok_clean h
                  have hc := congrArg PFlags.hit habs
                  simp [PFlags.seq] at hc
                · rw [if_neg hk] at h
                  cases lhsCur with
                  | null => exact PRes.noConfusion h
                  | mk lt lo ll lr =>
                    by_cases hbt : (Expr.mk lt lo ll lr).is_token = true
                    · simp only [if_pos hbt] at h
                      obtain ⟨hflc, hloop⟩ := withFl_ok_clean h
                      subst hflc
                      have hextE := ihE g (if assoc = LEFT then prec + 1 else prec)
                        rts rest rhs ts2' hfg' hrest hres
                      have hextL := ihL g mp (.mk none (some op) (.mk lt lo ll lr) rhs)
                        ts2' rest e ts2 hfg' hrest hloop
                      simp only [hextE, if_neg hk, if_pos hbt, hextL]
                      rfl
                    · by_cases hbp : (Expr.mk lt lo ll lr).is_parenth_expr = true
                      · simp only [if_neg hbt, if_pos hbp] at h
                        obtain ⟨hflc, hloop⟩ := withFl_ok_clean h
                        subst hflc
                        have hextE := ihE g (if assoc = LEFT then prec + 1 else prec)
                          rts rest rhs ts2' hfg' hrest hres
                        have hextL := ihL g mp
                          (.mk none (some op) (Expr.mk lt lo ll lr).rightv rhs)
                          ts2' rest e ts2 hfg' hrest hloop
                        simp only [hextE, if_neg hk, if_neg hbt, if_pos hbp, hextL]
                        rfl
                      · simp only [if_neg hbt, if_neg hbp, Expr.opv] at h
                        cases lo with
                        | none => exact PRes.noConfusion h
                        | some prev_op =>
                          cases hplk : lookupOp prev_op with
                          | none =>
                            simp only [hplk] at h
                            exact PRes.noConfusion h
                          | some pinfo =>
                            obtain ⟨pk, pa, pp⟩ := pinfo
                            simp only [hplk] at h
                            by_cases hpc : pk = BINARYOP ∧ pa = assoc ∧ pp = prec
                            · rw [if_pos hpc] at h
                              obtain ⟨hflc, hloop⟩ := withFl_ok_clean h
                              subst hflc
                              have hextE := ihE g (if assoc = LEFT then prec + 1 else prec)
                                rts rest rhs ts2' hfg' hrest hres
                              have hextL := ihL g mp
                                (.mk none (some op) (.mk lt (some prev_op) ll lr) rhs)
                                ts2' rest e ts2 hfg' hrest hloop
                              simp only [hextE, if_neg hk, if_neg hbt, if_neg hbp,
                                Expr.opv, hplk, if_pos hpc, hextL]
                              rfl
                            · rw [if_neg hpc, if_neg hk] at h
                              by_cases hkb : kind = BINARYOP
                              · rw [if_pos hkb] at h
                                obtain ⟨hflc, hloop⟩ := withFl_ok_clean h
                                subst hflc
                                have hextE := ihE g (if assoc = LEFT then prec + 1 else prec)
                                  rts rest rhs ts2' hfg' hrest hres
                                have hextL := ihL g mp
                                  (.mk none (some op) (.mk lt (some prev_op) ll lr) rhs)
                                  ts2' rest e ts2 hfg' hrest hloop
                                simp only [hextE, if_neg hk, if_neg hbt, if_neg hbp,
                                  Expr.opv, hplk, if_neg hpc, if_pos hkb, hextL]
                                rfl
                              · rw [if_neg hkb] at h
                                obtain ⟨hflc, hloop⟩ := withFl_ok_clean h
                                subst hflc
                                have hextE := ihE g (if assoc = LEFT then prec + 1 else prec)
                                  rts rest rhs ts2' hfg' hrest hres
                                have hextL := ihL g mp (.mk lt (some prev_op) ll lr)
                                  ts2' rest e ts2 hfg' hrest hloop
                                simp only [hextE, if_neg hk, if_neg hbt, if_neg hbp,
                                  Expr.opv, hplk, if_neg hpc, if_neg hkb, hextL]
                                rfl
              | crash m2 fl2 =>
                simp only [hres] at h
                exact PRes.noConfusion h
              | fuelOut fl2 =>
                simp only [hres] at h
                exact PRes.noConfusion h

/-! ## Claims -/

/-- C6: for every syntactically valid expression text e (the tokenizer
consumes it in full, the parser consumes every token cleanly and returns a
proper expression), parse("(" ++ e ++ ")") = parse(e): wrapping the whole
line in parentheses changes neither the printed messages nor the computed
value, because the parser wraps the inner parse in a parenthesis node and
such nodes are transparent to evaluate (Calc.py lines 165-166, 247-253). -/
theorem claim_C6_paren_round_trip (e : String) (hv : validLine e) :
    parse ("(" ++ e ++ ")") = parse e := by
  obtain ⟨toks, t, htok, hne, htnull, hparse⟩ := hv
  have ht : t.truthy = true := by
    cases t with
    | null => exact absurd rfl htnull
    | mk a b c d => rfl
  have htokenise : tokenise e = toks := by
    rw [tokenise, htok]
    rfl
  have hdata : ("(" ++ e ++ ")").data = '(' :: (e.data ++ [')']) := rfl
  have htok2 := tokeniseAux_append_rparen _ _ _ htok
  have htokfull : tokeniseAux (("(" ++ e ++ ")").data.length + 1)
      ("(" ++ e ++ ")").data = some ("(" :: (toks ++ [")"]), []) := by
    rw [hdata]
    rw [show ('(' :: (e.data ++ [')'])).length + 1 = (e.data.length + 1 + 1) + 1 by
      simp]
    rw [tokeniseAux_lparen, htok2]
  have htokenise2 : tokenise ("(" ++ e ++ ")") = "(" :: (toks ++ [")"]) := by
    rw [tokenise, htokfull]
    rfl
  obtain ⟨tok0, rtoks, rfl⟩ := List.exists_cons_of_ne_nil hne
  have hfle : parseFuel (tok0 :: rtoks).length ≤ 4 * (tok0 :: rtoks).length + 14 := by
    have hq : parseFuel (tok0 :: rtoks).length = 4 * (tok0 :: rtoks).length + 8 := rfl
    omega
  have hext := (parser_ext (parseFuel (tok0 :: rtoks).length)).2.1
    (4 * (tok0 :: rtoks).length + 14) 0 (tok0 :: rtoks) [")"] t [] hfle
    (Or.inr ⟨")", [], rfl, by decide⟩) hparse
  rw [List.nil_append] at hext
  have hwrap := parse_expr_lparen_step (4 * (tok0 :: rtoks).length + 14)
    ((tok0 :: rtoks) ++ [")"]) t hext
  simp only [parse, htokenise, htokenise2]
  rw [show parseFuel ("(" :: ((tok0 :: rtoks) ++ [")"])).length =
      4 * (tok0 :: rtoks).length + 14 + 2 by
    have hlen3 : ("(" :: ((tok0 :: rtoks) ++ [")"])).length =
        (tok0 :: rtoks).length + 2 := by simp
    rw [hlen3]
    have hq2 : parseFuel ((tok0 :: rtoks).length + 2) =
        4 * ((tok0 :: rtoks).length + 2) + 8 := rfl
    rw [hq2]
    omega]
  simp only [hwrap, hparse]
  rw [evaluate_paren t ht]

theorem claim_C6_paren_round_trip_witness :
    validLine "1" ∧ parse ("(" ++ "1" ++ ")") = parse "1" := by
  have hv : validLine "1" :=
    ⟨["1"], .mk (some (.str "1")) none .null .null,
      by decide, by decide, by decide, by decide⟩
  exact ⟨hv, claim_C6_paren_round_trip "1" hv⟩

/-- C1: the claim (with the spec semantics table, the module doc comment of
Calc.py and the repository test suite) states that binary + adds its
operands, so that "1 + 2 * 3" evaluates to 7.  The code (Calc.py line 196)
computes x - y for the + operator, so the program returns -5 on that very
input: a code bug.  This theorem evaluates the code at the failing input:
the tree is the correctly parsed Binary('+', 1, Binary('*', 2, 3)), and
evaluating it yields -5, not 7. -/
theorem claim_C1_binary_plus_code_bug :
    parse "1 + 2 * 3" = .ok [] (some (.int (-5))) ∧
    parseTree "1 + 2 * 3" =
      some (binNode "+" (strLeaf "1") (binNode "*" (strLeaf "2") (strLeaf "3"))) ∧
    evaluate (binNode "+" (strLeaf "1") (binNode "*" (strLeaf "2") (strLeaf "3"))) =
      .ok [] (some (.int (-5))) := by
  decide

/-- C4: the unary operators +, -, ~ have precedence 7, strictly between the
multiplicative operators (6) and exponentiation (8); consequently
"-2 ** 2" parses as -(2**2) and evaluates to -4.0, while "-2*3" parses as
(-2)*3 (and evaluates to -6). -/
theorem claim_C4_unary_precedence :
    lookupOp "+ x" = some (UNARYOP, RIGHT, 7) ∧
    lookupOp "- x" = some (UNARYOP, RIGHT, 7) ∧
    lookupOp "~ x" = some (UNARYOP, RIGHT, 7) ∧
    lookupOp "*" = some (BINARYOP, LEFT, 6) ∧
    lookupOp "/" = some (BINARYOP, LEFT, 6) ∧
    lookupOp "%" = some (BINARYOP, LEFT, 6) ∧
    lookupOp "**" = some (BINARYOP, RIGHT, 8) ∧
    parseTree "-2 ** 2" = some (unNode "- x" (binNode "**" (strLeaf "2") (strLeaf "2"))) ∧
    parse "-2 ** 2" = .ok [] (some (.float (-4))) ∧
    parseTree "-2*3" = some (binNode "*" (unNode "- x" (strLeaf "2")) (strLeaf "3")) ∧
    parse "-2*3" = .ok [] (some (.int (-6))) := by
  decide

/-- C5: operators of equal precedence group by their declared
associativity: "8 - 4 - 2" parses left-associatively as (8-4)-2 and
evaluates to 2, while "2 ** 3 ** 2" parses right-associatively as
2**(3**2) and evaluates to 512.0. -/
theorem claim_C5_associativity :
    lookupOp "-" = some (BINARYOP, LEFT, 5) ∧
    parseTree "8 - 4 - 2" =
      some (binNode "-" (binNode "-" (strLeaf "8") (strLeaf "4")) (strLeaf "2")) ∧
    parse "8 - 4 - 2" = .ok [] (some (.int 2)) ∧
    parseTree "2 ** 3 ** 2" =
      some (binNode "**" (strLeaf "2") (binNode "**" (strLeaf "3") (strLeaf "2"))) ∧
    parse "2 ** 3 ** 2" = .ok [] (some (.float 512)) := by
  decide

/-- C8: numeric literal text is parsed by format: 0x/0X prefix as hex,
0o as octal, 0b as binary, text with a dot or an e/E as a float, anything
else as a decimal integer.  Each dispatch rule is checked on concrete
literals, including the four instances named by the claim. -/
theorem claim_C8_literal_formats :
    to_number "0x7f" = some (.int 127) ∧
    to_number "0X7F" = some (.int 127) ∧
    to_number "0o7" = some (.int 7) ∧
    to_number "0b101" = some (.int 5) ∧
    to_number "5.0" = some (.float 5) ∧
    to_number "2e3" = some (.float 2000) ∧
    to_number "1E2" = some (.float 100) ∧
    to_number "45" = some (.int 45) ∧
    to_number "007" = some (.int 7) := by
  decide

/-- C2: for every numeric literal x (a nonempty token of numeric-run
characters denoting a number), evaluating the line "x / 0" prints exactly
the error "division by zero" and returns no value, and "x % 0" prints
"modulo by zero" and returns no value: the ArithmeticError is reported in
both cases, with no crash and no numeric result. -/
theorem claim_C2_div_mod_by_zero :
    ∀ (s : String) (v : Val),
      (∀ c ∈ s.data, c ∈ numeralChars) →
      to_number s = some v →
      parse (s ++ " / 0") = .ok ["Error: division by zero."] none ∧
      parse (s ++ " % 0") = .ok ["Error: modulo by zero."] none := by
  intro s v hnum hv
  have hne := to_number_ne_nil hv
  have h0 : to_number "0" = some (.int 0) := by decide
  constructor
  · simp only [parse, tokenise_numrun_div s hne hnum]
    rw [show parseFuel ([s, "/", "0"] : List String).length = 14 + 6 from rfl]
    rw [parse_expr_numrun_binop 14 s "/" hne hnum (by decide)]
    simp only [eval_binNode (show "/" ≠ "" by decide) hv h0]
    simp [applyOp, optTruthy, Val.truthy]
  · simp only [parse, tokenise_numrun_mod s hne hnum]
    rw [show parseFuel ([s, "%", "0"] : List String).length = 14 + 6 from rfl]
    rw [parse_expr_numrun_binop 14 s "%" hne hnum (by decide)]
    simp only [eval_binNode (show "%" ≠ "" by decide) hv h0]
    simp [applyOp, optTruthy, Val.truthy]

/-- Witness for C2 at x = 5: both error lines are printed verbatim and no
value is returned. -/
theorem claim_C2_div_mod_by_zero_witness :
    parse "5 / 0" = .ok ["Error: division by zero."] none ∧
    parse "5 % 0" = .ok ["Error: modulo by zero."] none := by
  have h := claim_C2_div_mod_by_zero "5" (.int 5) (by decide) (by decide)
  constructor
  · rw [show ("5 / 0" : String) = "5" ++ " / 0" from rfl]
    exact h.1
  · rw [show ("5 % 0" : String) = "5" ++ " % 0" from rfl]
    exact h.2

/-- C3 (amended): for numeric-literal operands x and y of a
Binary('%', x, y) node: (a) evaluation reports the error "modulo by zero"
(with no result) exactly when y equals zero; (b) for integer operands with
nonzero y it successfully returns the integer x mod y with the sign of the
divisor (Python's int modulo is exact at every magnitude, so this branch
needs no size restriction); and (c) — the correction — for an integer x
and a nonzero float divisor that truncates to 0 (so 0 < |y| < 1), with y
exactly representable as a binary double (so the program's float value
coincides with the model's exact rational), evaluation crashes with an
uncaught ZeroDivisionError instead of succeeding.  Float operands outside
the exactly-representable double range are deliberately not covered:
there Python's float rounding and float-range OverflowError paths decide
(e.g. int(float("1e999")) raises OverflowError, as does converting a
huge int divisor to float for a float x), which the exact-rational float
model does not represent. -/
theorem claim_C3_modulo_amended :
    ∀ (sx sy : String) (vx vy : Val),
      to_number sx = some vx → to_number sy = some vy →
      ((vy = .int 0 ∨ vy = .float 0) →
        evaluate (binNode "%" (strLeaf sx) (strLeaf sy)) =
          .ok ["Error: modulo by zero."] none) ∧
      (∀ n m, vx = .int n → vy = .int m → m ≠ 0 →
        evaluate (binNode "%" (strLeaf sx) (strLeaf sy)) =
          .ok [] (some (.int (Int.fmod n m)))) ∧
      (∀ n q, vx = .int n → vy = .float q → q ≠ 0 →
        (∃ m k, q = mkRat m (2 ^ k) ∧ m.natAbs < 2 ^ 53 ∧ k ≤ 1074) →
        truncInt (.float q) = 0 →
        evaluate (binNode "%" (strLeaf sx) (strLeaf sy)) =
          .crash "ZeroDivisionError: integer modulo by zero") := by
  intro sx sy vx vy hx hy
  rw [eval_binNode (by decide) hx hy]
  refine ⟨?_, ?_, ?_⟩
  · rintro (rfl | rfl) <;> simp [applyOp, optTruthy, Val.truthy]
  · rintro n m rfl rfl hm
    have htr : (Val.int m).truthy = true := by
      simp only [Val.truthy, bne_iff_ne, ne_eq, decide_not]
      simpa using hm
    simp [applyOp, optTruthy, htr, truncInt, hm]
  · rintro n q rfl rfl hq0 _ h0
    have htr : (Val.float q).truthy = true := by
      simp only [Val.truthy, bne_iff_ne, ne_eq, decide_not]
      simpa using hq0
    simp [applyOp, optTruthy, htr, h0]

/-- Witness for C3: 7 % 3 succeeds with 1, 7 % 0 prints the modulo-by-zero
error returning no value, and 5 % 0.5 (0.5 = 1/2^1, an exact double)
crashes with ZeroDivisionError. -/
theorem claim_C3_modulo_amended_witness :
    evaluate (binNode "%" (strLeaf "7") (strLeaf "3")) = .ok [] (some (.int 1)) ∧
    evaluate (binNode "%" (strLeaf "7") (strLeaf "0")) =
      .ok ["Error: modulo by zero."] none ∧
    evaluate (binNode "%" (strLeaf "5") (strLeaf "0.5")) =
      .crash "ZeroDivisionError: integer modulo by zero" := by
  refine ⟨?_, ?_, ?_⟩
  · have h := (claim_C3_modulo_amended "7" "3" (.int 7) (.int 3)
      (by decide) (by decide)).2.1 7 3 rfl rfl (by decide)
    exact h.trans (by decide)
  · exact (claim_C3_modulo_amended "7" "0" (.int 7) (.int 0)
      (by decide) (by decide)).1 (Or.inl rfl)
  · exact (claim_C3_modulo_amended "5" "0.5" (.int 5) (.float (mkRat 1 2))
      (by decide) (by decide)).2.2 5 (mkRat 1 2) rfl rfl (by decide)
      ⟨1, 1, by decide, by decide, by decide⟩ (by decide)

/-- C10: on every token list produced by tokenise — for any input line,
any fuel and any minimum precedence — the fold loop of parse_expr only
ever looks up binary-kind operator candidates, so neither UNARYOP fold
branch (Calc.py lines 299-300 and 310-311; the latter is the
Expr(ops=op, right=rhs) call whose ops keyword the Expr constructor does
not accept and which would raise TypeError if executed) ever runs: the
instrumentation flag recording their execution is never set.  The unary
table keys end in " x" and no token string contains a space, so no token
equals them. -/
theorem claim_C10_unaryop_fold_unreachable :
    ∀ (line : String) (fuel min_prec : Nat),
      resHit (parse_expr fuel min_prec (tokenise line)) = false := by
  intro line fuel min_prec
  exact ((parser_safe fuel).2.1 min_prec (tokenise line) (tokenise_tsSafe line)).1

/-- C9: the tokenizer scans left to right (skipping whitespace) and always
returns normally: the scan splits the line into the tokens produced so far
plus an unconsumed remainder that is a suffix of the line, and the
remainder is nonempty only in the silent-truncation case, i.e. exactly
when its first character is not whitespace, starts no predefined
operator/punctuation glyph (longest matched first), and is not a
numeric-literal character.  tokenise returns exactly those tokens; no
error is raised (there is no error channel at all). -/
theorem claim_C9_tokenise_halting :
    ∀ line : String,
      ∃ toks rest,
        tokeniseAux (line.data.length + 1) line.data = some (toks, rest) ∧
        tokenise line = toks ∧
        (∃ pre, line.data = pre ++ rest) ∧
        (rest = [] ∨ ∃ c cs, rest = c :: cs ∧ isWs c = false ∧
          Predefined_Tokens.find? (fun t => hasPfx t.data (c :: cs)) = none ∧
          numeralChars.contains c = false) := by
  intro line
  obtain ⟨toks, rest, h1, h2, h3, _⟩ :=
    tokeniseAux_spec (line.data.length + 1) line.data (by omega)
  refine ⟨toks, rest, h1, ?_, h2, h3⟩
  rw [tokenise, h1]
  rfl

/-- C3 counterexample: the claim says a Binary('%', x, y) node succeeds and
returns x mod int(y) for every nonzero y.  Take x = 5 and y = 0.5: y is
nonzero, but int(0.5) = 0, so the code computes 5 % 0, which raises
ZeroDivisionError (an uncaught crash, not the printed "modulo by zero"
error and not a result).  The same happens end to end for "5 % 0.5". -/
theorem claim_C3_counterexample :
    to_number "0.5" = some (.float (mkRat 1 2)) ∧
    evaluate (binNode "%" (strLeaf "5") (strLeaf "0.5")) =
      .crash "ZeroDivisionError: integer modulo by zero" ∧
    parse "5 % 0.5" = .crash "ZeroDivisionError: integer modulo by zero" := by
  decide

end Calc
